import Mathlib

set_option maxRecDepth 40000

/-!
Shallow embedding of the reconciliation engine of the repository
(two implementation variants):

* namespace `SyncCsv` — `src/scripts/sync_products.mjs`
* namespace `SyncP0`  — `src/unnamed/part_000` (a newer `scripts/sync_products.mjs`)

JavaScript `Map` objects are modelled as insertion-ordered association
lists (`JsMap`): `set` replaces the value in place for an existing key and
appends fresh keys at the end, exactly like the JS `Map` iteration order.
Strings are Lean `String`s with structural character-list models of the JS
string methods (`trimS`, `upperS`, `lowerS`, ...).
`localeCompare`-based sorting is modelled by code-point string comparison.
File system and network effects are factored out: the prior snapshots are
arguments, and a run returns `Except` — `.error` is the `process.exit(1)`
path on which nothing is written, `.ok` carries the two snapshots that the
run writes.
-/

/-!
The JS string primitives are modelled structurally on the character list so
that every definition evaluates inside the kernel: the scripts only handle
ASCII payloads, where these agree with `trim`, `toUpperCase`,
`toLowerCase`, `startsWith`, `slice` and `length` of JS.
-/

/-- JS `String.prototype.trim`. -/
def trimS (s : String) : String :=
  String.mk (((s.data.dropWhile Char.isWhitespace).reverse.dropWhile Char.isWhitespace).reverse)

/-- JS `toUpperCase`. -/
def upperS (s : String) : String := String.mk (s.data.map Char.toUpper)

/-- JS `toLowerCase`. -/
def lowerS (s : String) : String := String.mk (s.data.map Char.toLower)

/-- JS `startsWith`. -/
def startsWithS (s pre : String) : Bool := pre.data.isPrefixOf s.data

/-- JS `slice(0, n)`. -/
def takeS (s : String) (n : Nat) : String := String.mk (s.data.take n)

/-- JS `s.length`. -/
def lengthS (s : String) : Nat := s.data.length

/-- `text.split(/\n/)[0] || ""`. -/
def firstLineOf (s : String) : String := String.mk (s.data.takeWhile (fun c => c ≠ '\n'))

/-- Code-point comparison of character lists, the model of the
`localeCompare`-based output ordering. -/
def ltChars : List Char → List Char → Bool
  | [], [] => false
  | [], _ :: _ => true
  | _ :: _, [] => false
  | a :: as, b :: bs => if a < b then true else if b < a then false else ltChars as bs

/-- Strict string comparison by code points. -/
def strLtB (a b : String) : Bool := ltChars a.data b.data

/-- `Array.prototype.join(sep)`. -/
def joinSep (sep : String) (l : List String) : String := String.join (l.intersperse sep)

/-- JS truthy-or on strings: `a || b` where the empty string is falsy. -/
def jsOr (a b : String) : String := if a = "" then b else a

/-- Insertion-ordered association list modelling a JS `Map` with string keys. -/
abbrev JsMap (α : Type) : Type := List (String × α)

namespace JsMap

/-- `Map.prototype.set`: replace in place if present, else append at the end. -/
def jset {α : Type} : JsMap α → String → α → JsMap α
  | [], k, v => [(k, v)]
  | (k', v') :: rest, k, v =>
    if k' = k then (k', v) :: rest else (k', v') :: jset rest k v

/-- `Map.prototype.has`. -/
def jhas {α : Type} (m : JsMap α) (k : String) : Bool :=
  (m : List (String × α)).any (fun kv => kv.1 = k)

/-- `Map.prototype.get` (`none` = `undefined`). -/
def jget? {α : Type} (m : JsMap α) (k : String) : Option α :=
  ((m : List (String × α)).find? (fun kv => kv.1 = k)).map Prod.snd

/-- `Array.from(map.values())`: values in insertion order. -/
def jvalues {α : Type} (m : JsMap α) : List α :=
  (m : List (String × α)).map Prod.snd

/-- `Array.from(map.keys())`: keys in insertion order. -/
def jkeys {α : Type} (m : JsMap α) : List String :=
  (m : List (String × α)).map Prod.fst

end JsMap

open JsMap

/-- Membership test of a JS `Set` of strings (`set.has`). -/
def shas (l : List String) (k : String) : Bool := l.any (fun x => x = k)

namespace SyncP0

/-! ### `src/unnamed/part_000` -/

/-- `norm`: `String(s ?? "").trim()`. -/
def norm (s : String) : String := trimS s

/-- `upper`: `norm(s).toUpperCase()`. -/
def upper (s : String) : String := upperS (norm s)

/-- `normalizeMarket`. -/
def normalizeMarket (v : String) : String := upper v

/-- `normalizeAsin`. -/
def normalizeAsin (v : String) : String := upper v

/-- The regex test `/^https?:\/\//i.test(s)`. -/
def startsHttp (s : String) : Bool :=
  startsWithS (lowerS s) "http://" || startsWithS (lowerS s) "https://"

/-- `normalizeUrl`: keep only absolute http(s) URLs, else empty string. -/
def normalizeUrl (v : String) : String :=
  let s := norm v
  if s = "" then ""
  else if startsHttp s then s
  else ""

/-- `isValidHttpUrl`. -/
def isValidHttpUrl (u : String) : Bool := startsHttp (norm u)

/-- `isActiveStatus`: empty status counts as active, otherwise exact
membership in the positive vocabulary. -/
def isActiveStatus (v : String) : Bool :=
  let s := lowerS (norm v)
  if s = "" then true
  else ["1", "true", "yes", "on", "active", "enabled", "publish", "published", "online"].contains s

/-- `isAllDigits`: nonempty and matching `/^[0-9]+$/`. -/
def isAllDigits (s : String) : Bool :=
  let x := norm s
  x ≠ "" && x.data.all Char.isDigit

/-- `isNonAmazonByAsin`: numeric-only asin is hidden into the archive. -/
def isNonAmazonByAsin (asin : String) : Bool := isAllDigits asin

/-- One catalog record of this variant.  `hiddenReason` models the presence
or absence of the `_hidden_reason` key on the JS object. -/
structure PItem where
  market : String
  asin : String
  title : String
  link : String
  image_url : String
  hiddenReason : Option String := none
deriving DecidableEq

/-- `keyOf`. -/
def keyOf (p : PItem) : String := upper p.market ++ "|" ++ upper p.asin

/-- `pickBetter(existing, incoming)`; `none` models a missing `existing`. -/
def pickBetter : Option PItem → PItem → PItem
  | none, incoming => incoming
  | some existing, incoming =>
    let exLink := isValidHttpUrl existing.link
    let inLink := isValidHttpUrl incoming.link
    let exImg := norm existing.image_url ≠ ""
    let inImg := norm incoming.image_url ≠ ""
    let exTitleLen := (norm existing.title).length
    let inTitleLen := (norm incoming.title).length
    if !exLink && inLink then incoming
    else if exLink = inLink && (!exImg && inImg) then incoming
    else if exLink = inLink && (exImg = inImg && decide (inTitleLen > exTitleLen)) then incoming
    else existing

/-- The character loop of `parseCSV` (comma-delimited, quoted fields).
State: remaining input, current field, current row, finished rows, quote
flag.  The final flush keeps the last row only when a field or a cell was
accumulated (`if (field.length || row.length)`). -/
def csvLoop : List Char → List Char → List String → List (List String) → Bool → List (List String)
  | [], field, row, rows, _ =>
    if field ≠ [] ∨ row ≠ [] then rows ++ [row ++ [String.mk field]] else rows
  | '"' :: '"' :: rest2, field, row, rows, true => csvLoop rest2 (field ++ ['"']) row rows true
  | '"' :: rest, field, row, rows, true => csvLoop rest field row rows false
  | c :: rest, field, row, rows, true => csvLoop rest (field ++ [c]) row rows true
  | c :: rest, field, row, rows, false =>
    if c = '"' then csvLoop rest field row rows true
    else if c = ',' then csvLoop rest [] (row ++ [String.mk field]) rows false
    else if c = '\r' then csvLoop rest field row rows false
    else if c = '\n' then csvLoop rest [] [] (rows ++ [row ++ [String.mk field]]) false
    else csvLoop rest (field ++ [c]) row rows false

/-- `parseCSV` of `src/unnamed/part_000`. -/
def parseCSV (text : String) : List (List String) :=
  csvLoop text.data [] [] [] false

/-- `mapRow`: zip the raw header names with the row cells into a JS object. -/
def mapRow (headers : List String) (cells : List String) : JsMap String :=
  headers.enum.foldl (fun o hi => jset o hi.2 (norm (cells.getD hi.1 ""))) []

/-- Property read on a row object, `undefined` becoming `""` under `norm`. -/
def oget (o : JsMap String) (k : String) : String := (jget? o k).getD ""

/-- `normalizeMarket(o.market || o.Market || o.MARKET)`. -/
def rowMarket (headers r : List String) : String :=
  let o := mapRow headers r
  normalizeMarket (jsOr (oget o "market") (jsOr (oget o "Market") (oget o "MARKET")))

/-- `normalizeAsin(o.asin || o.ASIN)`. -/
def rowAsin (headers r : List String) : String :=
  let o := mapRow headers r
  normalizeAsin (jsOr (oget o "asin") (oget o "ASIN"))

/-- `o.status ?? o.Status ?? o.STATUS` (nullish chain, so a present empty
string is kept, only missing keys fall through). -/
def rowStatus (headers r : List String) : Option String :=
  let o := mapRow headers r
  ((jget? o "status").orElse (fun _ => jget? o "Status")).orElse (fun _ => jget? o "STATUS")

/-- Outcome of the per-row classification in the main loop. -/
inductive RowClass where
  | skip : RowClass
  | nonAmazon : PItem → RowClass
  | inactive : PItem → RowClass
  | active : PItem → RowClass
deriving DecidableEq

/-- The classification part of the `for (const r of dataRows)` body:
missing market/asin skips the row, then the numeric-asin exclusion is
checked strictly before the status check. -/
def classifyRow (headers r : List String) : RowClass :=
  let o := mapRow headers r
  let market := rowMarket headers r
  let asin := rowAsin headers r
  if market = "" ∨ asin = "" then .skip
  else
    let title := norm (jsOr (oget o "title") (jsOr (oget o "Title") ""))
    let link := normalizeUrl (jsOr (oget o "link") (oget o "Link"))
    let image_url := norm (jsOr (oget o "image_url") (jsOr (oget o "image")
      (jsOr (oget o "Image") (jsOr (oget o "imageUrl") ""))))
    if isNonAmazonByAsin asin then
      .nonAmazon ⟨market, asin, title, link, image_url, some "non_amazon_numeric_asin"⟩
    else if isActiveStatus ((rowStatus headers r).getD "") then
      .active ⟨market, asin, title, link, image_url, none⟩
    else
      .inactive ⟨market, asin, title, link, image_url, some "inactive_status"⟩

/-- In-memory state of the main loop: the two maps and the duplicate
counter. -/
structure P0State where
  activeMap : JsMap PItem
  archiveMap : JsMap PItem
  dupActive : Nat
deriving DecidableEq

/-- The mutation part of the loop body: excluded/offline records are
upserted into the archive map only when the key is absent, active records
go through `pickBetter` on collision. -/
def applyRow (st : P0State) : RowClass → P0State
  | .skip => st
  | .nonAmazon item =>
    let k := keyOf item
    if jhas st.archiveMap k then st
    else { st with archiveMap := jset st.archiveMap k item }
  | .inactive item =>
    let k := keyOf item
    if jhas st.archiveMap k then st
    else { st with archiveMap := jset st.archiveMap k item }
  | .active item =>
    let k := keyOf item
    match jget? st.activeMap k with
    | none => { st with activeMap := jset st.activeMap k item }
    | some existing =>
      { st with
          activeMap := jset st.activeMap k (pickBetter (some existing) item)
          dupActive := st.dupActive + 1 }

/-- The whole `for (const r of dataRows)` loop. -/
def foldRows (headers : List String) (st : P0State) (dataRows : List (List String)) : P0State :=
  dataRows.foldl (fun st r => applyRow st (classifyRow headers r)) st

/-- `prevProducts.forEach(p => prevMap.set(keyOf(p), p))` (same shape for
the archive map). -/
def buildMap (l : List PItem) : JsMap PItem :=
  l.foldl (fun m p => jset m (keyOf p) p) []

/-- Comparator of the two `sort` calls (modelling `localeCompare` by
code-point comparison): market first, then asin. -/
def itemLeB (a b : PItem) : Bool :=
  strLtB a.market b.market ||
    (decide (a.market = b.market) && (strLtB a.asin b.asin || decide (a.asin = b.asin)))

/-- The comparator as a relation, for the sort. -/
def itemLe (a b : PItem) : Prop := itemLeB a b = true

instance : DecidableRel itemLe := fun a b => inferInstanceAs (Decidable (itemLeB a b = true))

/-- Stable sort of the snapshot arrays. -/
def sortItems (l : List PItem) : List PItem := l.insertionSort itemLe

/-- The disappearance sweep: every previously active key absent from the
new active keys is archived as-is, unless already present. -/
def foldStep4 (nextKeys : List String) (m : JsMap PItem) (entries : JsMap PItem) : JsMap PItem :=
  (entries : List (String × PItem)).foldl
    (fun m kv => if shas nextKeys kv.1 then m else if jhas m kv.1 then m else jset m kv.1 kv.2) m

/-- Core of the main IIFE after parsing: classification and dedup of the
data rows, then the diff against the prior active set.  Returns
(`nextProducts`, `nextArchive`) as sorted, to be pretty-printed. -/
def part000Process (headers : List String) (dataRows : List (List String))
    (prevProducts prevArchive : List PItem) : List PItem × List PItem :=
  let prevMap := buildMap prevProducts
  let st := foldRows headers ⟨[], buildMap prevArchive, 0⟩ dataRows
  let nextProducts := sortItems (jvalues st.activeMap)
  let nextKeys := nextProducts.map keyOf
  let archiveMap := foldStep4 nextKeys st.archiveMap prevMap
  (nextProducts, sortItems (jvalues archiveMap))

/-- A run of the main IIFE from the fetched CSV text (prior snapshots are
the arguments; `safeReadJson` failures already replaced by `[]` upstream).
`.error` models the fatal path before any write; `.ok` carries the two
snapshots that get written. -/
def part000Run (text : String) (prevProducts prevArchive : List PItem) :
    Except String (List PItem × List PItem) :=
  let rows := parseCSV text
  if rows.length = 0 then .error "CSV is empty"
  else
    let headers := (rows.headD []).map norm
    let dataRows := (rows.drop 1).filter (fun r => r.any (fun c => norm c ≠ ""))
    .ok (part000Process headers dataRows prevProducts prevArchive)

end SyncP0

namespace SyncCsv

/-! ### `src/scripts/sync_products.mjs` -/

/-- `normStr`: `(s ?? "").toString().trim()`. -/
def normStr (s : String) : String := trimS s

/-- `safeUpper`: `(s || "").toString().trim().toUpperCase()`. -/
def safeUpper (s : String) : String := upperS (trimS s)

/-- Substring search on char lists (JS `String.prototype.includes`). -/
def hasSubL (sub : List Char) : List Char → Bool
  | [] => sub.isEmpty
  | c :: rest => sub.isPrefixOf (c :: rest) || hasSubL sub rest

/-- `s.includes(sub)`. -/
def containsSub (s sub : String) : Bool := hasSubL sub.data s.data

/-- `looksLikeHTML`: scan the first 400 characters, lower-cased, for HTML
markers. -/
def looksLikeHTML (text : String) : Bool :=
  let t := lowerS (takeS text 400)
  containsSub t "<html" || containsSub t "<!doctype" || containsSub t "<body" || containsSub t "</html>"

/-- `headerContainsAsin`. -/
def headerContainsAsin (headerLine : String) : Bool :=
  containsSub (lowerS headerLine) "asin"

/-- `detectDelimiter`: semicolon only when it beats the comma count. -/
def detectDelimiter (headerLine : String) : Char :=
  let comma := headerLine.data.count ','
  let semi := headerLine.data.count ';'
  if semi > comma then ';' else ','

/-- `makeKey(market, asin)`: only the market is upper-cased; the asin is
merely trimmed. -/
def makeKey (market asin : String) : String :=
  safeUpper market ++ "::" ++ trimS (normStr asin)

/-- Character loop of this variant of `parseCSV`: same quote handling as
the other variant, parametric delimiter, and an unconditional final flush
of the last row. -/
def csvLoop (d : Char) : List Char → List Char → List String → List (List String) → Bool → List (List String)
  | [], field, row, rows, _ => rows ++ [row ++ [String.mk field]]
  | '"' :: '"' :: rest2, field, row, rows, true => csvLoop d rest2 (field ++ ['"']) row rows true
  | '"' :: rest, field, row, rows, true => csvLoop d rest field row rows false
  | c :: rest, field, row, rows, true => csvLoop d rest (field ++ [c]) row rows true
  | c :: rest, field, row, rows, false =>
    if c = '"' then csvLoop d rest field row rows true
    else if c = d then csvLoop d rest [] (row ++ [String.mk field]) rows false
    else if c = '\r' then csvLoop d rest field row rows false
    else if c = '\n' then csvLoop d rest [] [] (rows ++ [row ++ [String.mk field]]) false
    else csvLoop d rest (field ++ [c]) row rows false

/-- A row whose every cell trims to empty. -/
def rowAllEmpty (r : List String) : Bool := r.all (fun x => normStr x = "")

/-- `parseCSV(text, delimiter)`: run the loop, then drop the trailing
all-empty rows. -/
def parseCSV (text : String) (d : Char) : List (List String) :=
  ((csvLoop d text.data [] [] [] false).reverse.dropWhile rowAllEmpty).reverse

/-- Collapse every maximal whitespace run into a single space
(`replace(/\\s+/g, " ")`): a whitespace character emits a space unless one
was just emitted; only whitespace ever emits a leading space. -/
def squeezeWs (l : List Char) : List Char :=
  l.foldr
    (fun c acc =>
      if c.isWhitespace then if acc.head? = some ' ' then acc else ' ' :: acc
      else c :: acc) []

/-- `normalizeHeader`: trim, lower-case, squeeze whitespace, trim. -/
def normalizeHeader (h : String) : String :=
  trimS (String.mk (squeezeWs (lowerS (normStr h)).data))

/-- The `alias` helper of `buildHeaderMap`: if the canonical name is
missing, bind it to the index of the first matching alternative. -/
def aliasAdd (m : JsMap Nat) (name : String) (alternatives : List String) : JsMap Nat :=
  if jhas m name then m
  else
    match alternatives.findSome? (fun a => jget? m (normalizeHeader a)) with
    | some idx => jset m name idx
    | none => m

/-- `buildHeaderMap`. -/
def buildHeaderMap (headers : List String) : JsMap Nat :=
  let m := headers.enum.foldl (fun m hi => jset m (normalizeHeader hi.2) hi.1) []
  let m := aliasAdd m "market" ["Market", "country", "Country", "site", "Site"]
  let m := aliasAdd m "asin" ["ASIN", "Asin"]
  let m := aliasAdd m "title" ["Title", "name", "Name"]
  let m := aliasAdd m "link" ["Link", "url", "URL"]
  let m := aliasAdd m "image_url" ["image", "Image", "image url", "Image URL", "image_url"]
  let m := aliasAdd m "remark" ["Remark", "note", "Note"]
  let m := aliasAdd m "status" ["Status", "state", "State"]
  let m := aliasAdd m "discount price" ["Discount Price", "discount", "Discount"]
  let m := aliasAdd m "commission" ["Commission", "fee", "Fee"]
  m

/-- `getField`: `row[idx] ?? ""`, empty when the key is unmapped. -/
def getField (row : List String) (headerMap : JsMap Nat) (key : String) : String :=
  match jget? headerMap key with
  | none => ""
  | some idx => row.getD idx ""

/-- `isOfflineByStatus`: empty is active; otherwise match or contain one of
the negative markers. -/
def isOfflineByStatus (statusRaw : String) : Bool :=
  let s := lowerS (normStr statusRaw)
  if s = "" then false
  else
    ["off", "offline", "inactive", "disabled", "down", "removed", "delete",
      "deleted", "0", "false", "no", "stop", "stopped"].any
      (fun t => s = t || containsSub s t)

/-- One record of this variant.  Active records carry the first ten fields;
the three archive tags are the extra keys added on the archive paths (empty
string models an absent key). -/
structure SItem where
  market : String := ""
  asin : String := ""
  title : String := ""
  link : String := ""
  image_url : String := ""
  remark : String := ""
  discount_price : String := ""
  commission : String := ""
  status : String := ""
  updated_at : String := ""
  archived_reason : String := ""
  archived_at : String := ""
  last_seen_at : String := ""
deriving DecidableEq

/-- Loop state of `main`: the two maps and the three counters. -/
structure SState where
  newActiveMap : JsMap SItem
  archiveMap : JsMap SItem
  totalRows : Nat
  skipped : Nat
  offlineCount : Nat
deriving DecidableEq

/-- Body of the `for (let r = 1; ...)` loop.  `nowISO()` is the `now`
argument.  In the offline branch the source spreads
`{...prev, ...item, archived_reason, archived_at, last_seen_at}`: the item
literal defines every record field, so `prev` is fully shadowed and the
merge equals `item` plus the three tags. -/
def processRow (headerMap : JsMap Nat) (now : String) (st : SState) (row : List String) : SState :=
  let st := { st with totalRows := st.totalRows + 1 }
  let market := safeUpper (getField row headerMap "market")
  let asin := trimS (normStr (getField row headerMap "asin"))
  if market = "" ∨ asin = "" then { st with skipped := st.skipped + 1 }
  else
    let statusRaw := getField row headerMap "status"
    let offline := isOfflineByStatus statusRaw
    let item : SItem :=
      { market := market
        asin := asin
        title := normStr (getField row headerMap "title")
        link := normStr (getField row headerMap "link")
        image_url := normStr (getField row headerMap "image_url")
        remark := normStr (getField row headerMap "remark")
        discount_price := normStr (getField row headerMap "discount price")
        commission := normStr (getField row headerMap "commission")
        status := normStr statusRaw
        updated_at := now }
    let key := makeKey market asin
    if offline then
      { st with
          offlineCount := st.offlineCount + 1
          archiveMap := jset st.archiveMap key
            { item with archived_reason := "status_offline", archived_at := now, last_seen_at := now } }
    else
      let st := { st with newActiveMap := jset st.newActiveMap key item }
      match jget? st.archiveMap key with
      | some prev => { st with archiveMap := jset st.archiveMap key { prev with last_seen_at := now } }
      | none => st

/-- Step 4: every previously active key absent from the new active map is
re-archived unconditionally.  `{...prev, ...prevItem, tags}`: `prevItem`
defines every record field, so `prev` is fully shadowed and the result is
`prevItem` plus the three tags. -/
def step4 (newActiveMap : JsMap SItem) (now : String) (m : JsMap SItem) (entries : JsMap SItem) : JsMap SItem :=
  (entries : List (String × SItem)).foldl
    (fun m kv =>
      if jhas newActiveMap kv.1 then m
      else jset m kv.1
        { kv.2 with archived_reason := "removed_from_csv", archived_at := now, last_seen_at := now })
    m

/-- Output comparator (`localeCompare` modelled by code-point order). -/
def sItemLeB (a b : SItem) : Bool :=
  strLtB a.market b.market ||
    (decide (a.market = b.market) && (strLtB a.asin b.asin || decide (a.asin = b.asin)))

/-- The comparator as a relation, for the sort. -/
def sItemLe (a b : SItem) : Prop := sItemLeB a b = true

instance : DecidableRel sItemLe := fun a b => inferInstanceAs (Decidable (sItemLeB a b = true))

/-- Stable sort of the two output arrays. -/
def sortSItems (l : List SItem) : List SItem := l.insertionSort sItemLe

/-- Steps 1 and 3-5 of `main` on an already parsed grid: load the prior
maps, classify the data rows, run the disappearance sweep, sort the
outputs. -/
def syncProcess (grid : List (List String)) (prevProducts prevArchive : List SItem)
    (now : String) : List SItem × List SItem :=
  let archiveMap0 := prevArchive.foldl
    (fun m item =>
      let key := makeKey item.market item.asin
      if containsSub key "::" then jset m key item else m) []
  let prevActiveMap := prevProducts.foldl
    (fun m item => jset m (makeKey item.market item.asin) item) []
  let headers := (grid.headD []).map normStr
  let headerMap := buildHeaderMap headers
  let st := (grid.drop 1).foldl (processRow headerMap now) ⟨[], archiveMap0, 0, 0, 0⟩
  let archiveMap := step4 st.newActiveMap now st.archiveMap prevActiveMap
  (sortSItems (jvalues st.newActiveMap), sortSItems (jvalues archiveMap))

/-- A full run of `main` from the CSV text: the fatal input checks, parse,
then `syncProcess`.  `.error` models `process.exit(1)` before any write;
`.ok` carries the two snapshots written at the end. -/
def syncRun (text : String) (prevProducts prevArchive : List SItem) (now : String) :
    Except String (List SItem × List SItem) :=
  if lengthS (normStr text) < 10 then .error "CSV content empty or too short."
  else if looksLikeHTML text then .error "CSV content looks like HTML (login/error page)."
  else
    let firstLine := firstLineOf text
    if headerContainsAsin firstLine = false then
      .error "CSV header does not include asin. Probably not the correct export."
    else
      let delimiter := detectDelimiter firstLine
      let grid := parseCSV text delimiter
      if grid.length < 2 then .error "CSV parsed but has no data rows."
      else .ok (syncProcess grid prevProducts prevArchive now)

/-- JSON string escaping for the characters occurring in these records. -/
def jsonEscapeChar (c : Char) : String :=
  if c = '"' then "\\\""
  else if c = '\\' then "\\\\"
  else if c = '\n' then "\\n"
  else if c = '\r' then "\\r"
  else if c = '\t' then "\\t"
  else String.mk [c]

/-- Escape a whole string for JSON. -/
def jsonEscape (s : String) : String := String.join (s.data.map jsonEscapeChar)

/-- One `"key": "value"` line at the two-space-indented object level. -/
def fieldLine (k v : String) : String :=
  "    \"" ++ k ++ "\": \"" ++ jsonEscape v ++ "\""

/-- `JSON.stringify` of one active record with two-space indentation: the
ten keys of the item literal, in insertion order. -/
def sItemJson (p : SItem) : String :=
  "  \x7b\n" ++ joinSep ",\n"
    [fieldLine "market" p.market, fieldLine "asin" p.asin, fieldLine "title" p.title,
      fieldLine "link" p.link, fieldLine "image_url" p.image_url, fieldLine "remark" p.remark,
      fieldLine "discount_price" p.discount_price, fieldLine "commission" p.commission,
      fieldLine "status" p.status, fieldLine "updated_at" p.updated_at] ++ "\n  \x7d"

/-- The bytes written to `products.json`:
`JSON.stringify(newProducts, null, 2) + "\n"`. -/
def productsJson (l : List SItem) : String :=
  (if l.isEmpty then "[]"
   else "[\n" ++ joinSep ",\n" (l.map sItemJson) ++ "\n]") ++ "\n"

end SyncCsv

namespace SyncP0

/-- The comparison key of the duplicate resolver: link validity, image
presence, trimmed-title length. -/
def rank (p : PItem) : Bool × Bool × Nat :=
  (isValidHttpUrl p.link, decide (norm p.image_url ≠ ""), (norm p.title).length)

/-- Strict lexicographic order on the resolver key. -/
def rankLt : Bool × Bool × Nat → Bool × Bool × Nat → Bool
  | (l1, i1, t1), (l2, i2, t2) =>
    (!l1 && l2) || (l1 == l2 && ((!i1 && i2) || (i1 == i2 && decide (t1 < t2))))

/-- Modelled from the spec, section 4.3 Duplicate Resolver: the strict
precedence (valid link, then image presence, then longer trimmed title)
applied as a lexicographic order, keeping the first-seen record on a full
tie. -/
def specResolve (firstSeen incoming : PItem) : PItem :=
  if rankLt (rank firstSeen) (rank incoming) then incoming else firstSeen

end SyncP0


/-! ## Library lemmas about the JS `Map` and `Set` models -/

namespace JsMap

theorem mem_jset {α : Type} {m : JsMap α} {k : String} {v : α} {kv : String × α}
    (h : kv ∈ jset m k v) : kv = (k, v) ∨ kv ∈ m := by
  induction m with
  | nil => simpa [jset] using h
  | cons hd tl ih =>
    rw [jset] at h
    by_cases hk : hd.1 = k
    · rw [if_pos hk] at h
      rcases List.mem_cons.mp h with h1 | h1
      · subst hk
        exact Or.inl (by rw [h1])
      · exact Or.inr (List.mem_cons_of_mem _ h1)
    · rw [if_neg hk] at h
      rcases List.mem_cons.mp h with h1 | h1
      · exact Or.inr (List.mem_cons.mpr (Or.inl h1))
      · rcases ih h1 with h2 | h2
        · exact Or.inl h2
        · exact Or.inr (List.mem_cons_of_mem _ h2)

theorem jhas_iff {α : Type} {m : JsMap α} {k : String} :
    jhas m k = true ↔ ∃ v, (k, v) ∈ m := by
  constructor
  · intro h
    rcases List.any_eq_true.mp h with ⟨kv, hmem, hk⟩
    exact ⟨kv.2, by rwa [show (k, kv.2) = kv from Prod.ext (of_decide_eq_true hk).symm rfl]⟩
  · rintro ⟨v, hv⟩
    exact List.any_eq_true.mpr ⟨(k, v), hv, by simp⟩

theorem jhas_jset_iff {α : Type} {m : JsMap α} {k k' : String} {v : α} :
    jhas (jset m k v) k' = true ↔ k' = k ∨ jhas m k' = true := by
  induction m with
  | nil =>
    simp only [jset, jhas, List.any_cons, List.any_nil, Bool.or_false, decide_eq_true_eq]
    exact ⟨fun h => Or.inl h.symm,
      fun h => (h.resolve_right (by simp)).symm⟩
  | cons hd tl ih =>
    rw [jset]
    by_cases hk : hd.1 = k
    · rw [if_pos hk]
      subst hk
      simp only [jhas, List.any_cons, Bool.or_eq_true, decide_eq_true_eq]
      constructor
      · rintro (h1 | h1)
        · exact Or.inl h1.symm
        · exact Or.inr (Or.inr h1)
      · rintro (h1 | h1 | h1)
        · exact Or.inl h1.symm
        · exact Or.inl h1
        · exact Or.inr h1
    · rw [if_neg hk]
      simp only [jhas, List.any_cons] at *
      rw [Bool.or_eq_true, Bool.or_eq_true, ih]
      tauto

theorem jhas_jset_self {α : Type} (m : JsMap α) (k : String) (v : α) :
    jhas (jset m k v) k = true :=
  jhas_jset_iff.mpr (Or.inl rfl)

theorem jget?_jset_self {α : Type} (m : JsMap α) (k : String) (v : α) :
    jget? (jset m k v) k = some v := by
  induction m with
  | nil => simp [jset, jget?]
  | cons hd tl ih =>
    rw [jset]
    by_cases hk : hd.1 = k
    · rw [if_pos hk]
      simp [jget?, List.find?, hk]
    · rw [if_neg hk]
      simpa [jget?, List.find?, hk] using ih

theorem jget?_jset_ne {α : Type} (m : JsMap α) {k k' : String} (v : α) (h : k' ≠ k) :
    jget? (jset m k v) k' = jget? m k' := by
  have hne : ¬(k = k') := fun hh => h hh.symm
  induction m with
  | nil => simp [jset, jget?, List.find?, hne]
  | cons hd tl ih =>
    rw [jset]
    by_cases hk : hd.1 = k
    · rw [if_pos hk]
      have hk' : ¬(hd.1 = k') := fun hh => hne (hk.symm.trans hh)
      simp [jget?, List.find?, hk', hne, hk]
    · rw [if_neg hk]
      by_cases hk' : hd.1 = k'
      · simp [jget?, List.find?, hk']
      · simpa [jget?, List.find?, hk'] using ih

theorem jget?_eq_some_mem {α : Type} {m : JsMap α} {k : String} {v : α}
    (h : jget? m k = some v) : (k, v) ∈ m := by
  rcases Option.map_eq_some'.mp h with ⟨kv, hfind, hsnd⟩
  have hp := List.find?_some hfind
  have hk : kv.1 = k := by simpa using hp
  have hm := List.mem_of_find?_eq_some hfind
  rwa [show (k, v) = kv from Prod.ext hk.symm hsnd.symm]

theorem jhas_of_jget? {α : Type} {m : JsMap α} {k : String} {v : α}
    (h : jget? m k = some v) : jhas m k = true :=
  jhas_iff.mpr ⟨v, jget?_eq_some_mem h⟩

theorem jget?_of_jhas {α : Type} {m : JsMap α} {k : String}
    (h : jhas m k = true) : ∃ v, jget? m k = some v := by
  rcases jhas_iff.mp h with ⟨v, -⟩
  cases hfind : jget? m k with
  | some w => exact ⟨w, rfl⟩
  | none =>
    rcases jhas_iff.mp h with ⟨u, hu⟩
    have : (List.find? (fun kv => decide (kv.1 = k)) m) = none := by
      simpa [jget?] using hfind
    have := List.find?_eq_none.mp this (k, u) hu
    simp at this

theorem mem_jvalues {α : Type} {m : JsMap α} {v : α} :
    v ∈ jvalues m ↔ ∃ k, (k, v) ∈ m := by
  constructor
  · intro h
    rcases List.mem_map.mp h with ⟨kv, hmem, hv⟩
    exact ⟨kv.1, by rwa [show (kv.1, v) = kv from Prod.ext rfl hv.symm]⟩
  · rintro ⟨k, hk⟩
    exact List.mem_map.mpr ⟨(k, v), hk, rfl⟩

/-- When the key is fresh, `jset` is an append at the end. -/
theorem jset_eq_append {α : Type} {m : JsMap α} {k : String} (v : α)
    (h : jhas m k = false) : jset m k v = m ++ [(k, v)] := by
  induction m with
  | nil => simp [jset]
  | cons hd tl ih =>
    simp only [jhas, List.any_cons, Bool.or_eq_false_iff] at h
    rw [jset, if_neg (by simpa using h.1), ih (by simpa [jhas] using h.2)]
    simp

end JsMap

theorem shas_iff {l : List String} {k : String} : shas l k = true ↔ k ∈ l := by
  rw [shas, List.any_eq_true]
  constructor
  · rintro ⟨x, hx, he⟩
    rwa [of_decide_eq_true he] at hx
  · intro h
    exact ⟨k, h, by simp⟩


/-! ## Helper lemmas about the duplicate resolver -/

namespace SyncP0

theorem pickBetter_eq_specResolve (e i : PItem) : pickBetter (some e) i = specResolve e i := by
  unfold pickBetter specResolve rankLt rank
  rcases Bool.dichotomy (isValidHttpUrl e.link) with hl1 | hl1 <;>
    rcases Bool.dichotomy (isValidHttpUrl i.link) with hl2 | hl2 <;>
      rcases Bool.dichotomy (decide (norm e.image_url ≠ "")) with hi1 | hi1 <;>
        rcases Bool.dichotomy (decide (norm i.image_url ≠ "")) with hi2 | hi2 <;>
          simp [hl1, hl2, hi1, hi2]

theorem rankLt_asymm : ∀ a b : Bool × Bool × Nat, rankLt a b = true → rankLt b a = false := by
  rintro ⟨l1, i1, t1⟩ ⟨l2, i2, t2⟩ h
  cases l1 <;> cases l2 <;> cases i1 <;> cases i2 <;> simp_all [rankLt] <;> omega

theorem rankLt_total : ∀ a b : Bool × Bool × Nat, rankLt a b = false → rankLt b a = false → a = b := by
  rintro ⟨l1, i1, t1⟩ ⟨l2, i2, t2⟩ h1 h2
  cases l1 <;> cases l2 <;> cases i1 <;> cases i2 <;> simp_all [rankLt] <;> omega

end SyncP0

/-! ## Helper lemmas about the CSV parsers -/

namespace SyncP0

/-- Inside an unbalanced quote the loop of this parser consumes the whole
remaining input into the current field. -/
theorem csvLoop_open_quote0 (t : List Char) :
    ∀ (field : List Char) (row : List String) (rows : List (List String)),
      (∀ c ∈ t, c ≠ '"') →
      csvLoop t field row rows true =
        if field ++ t ≠ [] ∨ row ≠ [] then rows ++ [row ++ [String.mk (field ++ t)]] else rows := by
  induction t with
  | nil =>
    intro field row rows _
    simp [csvLoop]
  | cons c rest ih =>
    intro field row rows h
    have hc : ¬(c = '"') := h c (List.mem_cons_self _ _)
    rw [csvLoop.eq_4 field row rows c rest (fun _ hc2 _ => hc hc2) (fun hc2 => hc hc2)]
    rw [ih (field ++ [c]) row rows (fun x hx => h x (List.mem_cons_of_mem _ hx))]
    simp

end SyncP0

namespace SyncCsv

/-- Inside an unbalanced quote the loop of this parser consumes the whole
remaining input into the current field. -/
theorem csvLoop_open_quoteD (d : Char) (t : List Char) :
    ∀ (field : List Char) (row : List String) (rows : List (List String)),
      (∀ c ∈ t, c ≠ '"') →
      csvLoop d t field row rows true = rows ++ [row ++ [String.mk (field ++ t)]] := by
  induction t with
  | nil =>
    intro field row rows _
    simp [csvLoop]
  | cons c rest ih =>
    intro field row rows h
    have hc : ¬(c = '"') := h c (List.mem_cons_self _ _)
    rw [csvLoop.eq_4 d field row rows c rest (fun _ hc2 _ => hc hc2) (fun hc2 => hc hc2)]
    rw [ih (field ++ [c]) row rows (fun x hx => h x (List.mem_cons_of_mem _ hx))]
    simp

end SyncCsv

/-! ## Claim theorems -/

/-- C1 counterexample: a key that is in the prior archive and is classified
active by the current feed ends up in both output sets of the part_000
pipeline — the run does not remove a reappearing key from the archive, so
mutual exclusion fails as stated. -/
theorem C1_counterexample :
    (SyncP0.part000Run "market,asin\nUS,ABC" []
        [⟨"US", "ABC", "", "", "", some "inactive_status"⟩]).map
      (fun pr => (pr.1.map SyncP0.keyOf, pr.2.map SyncP0.keyOf)) =
      .ok (["US|ABC"], ["US|ABC"]) := rfl

/-- C2 counterexample: a key of the prior active set whose feed rows are
first offline then active ends up in both the new active and the new
archive set — "exactly one" fails (the no-loss union still holds). -/
theorem C2_counterexample :
    (SyncP0.part000Run "market,asin,status\nUS,ABC,off\nUS,ABC,active"
        [⟨"US", "ABC", "", "", "", none⟩] []).map
      (fun pr => (pr.1.map SyncP0.keyOf, pr.2.map SyncP0.keyOf)) =
      .ok (["US|ABC"], ["US|ABC"]) := rfl

/-- C3 counterexample: the part_000 pipeline does not detect an HTML error
page; the body parses as a one-row feed and the run completes, writing both
(empty) snapshots, although the body is detectably HTML. -/
theorem C3_counterexample :
    SyncP0.part000Run "<html><body>login</body></html>" [] [] = .ok ([], []) ∧
    SyncCsv.looksLikeHTML "<html><body>login</body></html>" = true :=
  ⟨rfl, by decide⟩

/-- C4 counterexample: the scripts/sync_products.mjs pipeline has no
structural exclusion: a feed record with an all-digit identity code and
status "active" lands in its new active set and nothing is archived. -/
theorem C4_counterexample :
    (SyncCsv.syncProcess [["market", "asin", "status"], ["DE", "1234567", "active"]] [] [] "T").1.map
        (fun p => (p.market, p.asin, p.status)) = [("DE", "1234567", "active")] ∧
    (SyncCsv.syncProcess [["market", "asin", "status"], ["DE", "1234567", "active"]] [] [] "T").2 = [] ∧
    SyncP0.isAllDigits "1234567" = true := by
  refine ⟨by decide, by decide, by decide⟩

/-- C5 counterexample: on a collision the scripts/sync_products.mjs
pipeline keeps the last-seen record: fed a record with a valid link and an
image first and an empty record second, the survivor is the empty one,
against the claimed precedence. -/
theorem C5_counterexample :
    (SyncCsv.syncProcess
        [["market", "asin", "link", "image"],
          ["US", "ABC123", "http://example.com/x", "http://img.example/i.jpg"],
          ["US", "ABC123", "", ""]] [] [] "T").1.map (fun p => (p.link, p.image_url)) =
      [("", "")] ∧
    SyncP0.isValidHttpUrl "http://example.com/x" = true := by
  refine ⟨by decide, by decide⟩

/-- C6 counterexample: in scripts/sync_products.mjs the disappearance sweep
overwrites the archive entry written by the offline branch: a prior-active
record whose row is explicitly offline ends tagged removed_from_csv, not
status_offline. -/
theorem C6_counterexample :
    (SyncCsv.syncProcess [["market", "asin", "status"], ["US", "B01", "off"]]
        [{market := "US", asin := "B01"}] [] "T").2.map (fun p => p.archived_reason) =
      ["removed_from_csv"] ∧
    SyncCsv.isOfflineByStatus "off" = true := by
  refine ⟨by decide, by decide⟩

/-- C7 counterexample: the scripts/sync_products.mjs snapshots embed the
run timestamp (updated_at and the archive tags), so two runs over the same
feed from no prior state yield different bytes whenever the clock strings
differ. -/
theorem C7_counterexample :
    SyncCsv.productsJson
        ((SyncCsv.syncProcess [["market", "asin"], ["US", "B01X"]] [] [] "2024-01-01T00:00:00.000Z").1) ≠
      SyncCsv.productsJson
        ((SyncCsv.syncProcess [["market", "asin"], ["US", "B01X"]] [] [] "2024-01-01T00:00:01.000Z").1) := by
  decide

/-- C8 counterexample: makeKey of scripts/sync_products.mjs upper-cases
only the market: two ids differing only in letter case give different keys
and coexist in the active set, although their upper-casings agree. -/
theorem C8_counterexample :
    SyncCsv.makeKey "us" "abc" ≠ SyncCsv.makeKey "us" "ABC" ∧
    SyncP0.upper "abc" = SyncP0.upper "ABC" ∧
    (SyncCsv.syncProcess [["market", "asin"], ["US", "abc"], ["US", "ABC"]] [] [] "T").1.map
        (fun p => p.asin) = ["ABC", "abc"] := by
  refine ⟨by decide, by decide, by decide⟩

/-- C9 counterexample: two distinct records tied on the resolver key (no
links, no images, equal title lengths): the resolver keeps whichever was
seen first, so feeding them in either order yields different winners. -/
theorem C9_counterexample :
    SyncP0.pickBetter (some ⟨"US", "A1", "AB", "", "", none⟩) ⟨"US", "A1", "CD", "", "", none⟩ =
        ⟨"US", "A1", "AB", "", "", none⟩ ∧
    SyncP0.pickBetter (some ⟨"US", "A1", "CD", "", "", none⟩) ⟨"US", "A1", "AB", "", "", none⟩ =
        ⟨"US", "A1", "CD", "", "", none⟩ ∧
    (⟨"US", "A1", "AB", "", "", none⟩ : SyncP0.PItem) ≠ ⟨"US", "A1", "CD", "", "", none⟩ := by
  refine ⟨by decide, by decide, by decide⟩

/-- C3 (amended): in scripts/sync_products.mjs every feed body that is
empty/too short, detectably an HTML page, or whose header line lacks the
asin column aborts the run before any snapshot is produced; the part_000
pipeline aborts only when the parsed feed has no rows at all. -/
theorem C3_fatal_input_checks :
    (∀ (text : String) (prevP prevA : List SyncCsv.SItem) (now : String),
      (lengthS (SyncCsv.normStr text) < 10 ∨ SyncCsv.looksLikeHTML text = true ∨
        SyncCsv.headerContainsAsin (firstLineOf text) = false) →
      ∃ e, SyncCsv.syncRun text prevP prevA now = .error e) ∧
    (∀ (text : String) (prevP prevA : List SyncP0.PItem),
      SyncP0.parseCSV text = [] →
      SyncP0.part000Run text prevP prevA = .error "CSV is empty") := by
  constructor
  · intro text prevP prevA now h
    unfold SyncCsv.syncRun
    by_cases h1 : lengthS (SyncCsv.normStr text) < 10
    · rw [if_pos h1]
      exact ⟨_, rfl⟩
    · rw [if_neg h1]
      by_cases h2 : SyncCsv.looksLikeHTML text = true
      · rw [if_pos h2]
        exact ⟨_, rfl⟩
      · rw [if_neg h2]
        have h3 : SyncCsv.headerContainsAsin (firstLineOf text) = false := by
          rcases h with h | h | h
          · exact absurd h h1
          · exact absurd h h2
          · exact h
        rw [if_pos h3]
        exact ⟨_, rfl⟩
  · intro text prevP prevA h
    unfold SyncP0.part000Run
    rw [h]
    rfl

/-- C3 witness: the empty feed body trips both fatal paths. -/
theorem C3_witness :
    (∃ e, SyncCsv.syncRun "" [] [] "T" = .error e) ∧
    SyncP0.part000Run "" [] [] = .error "CSV is empty" :=
  ⟨C3_fatal_input_checks.1 "" [] [] "T" (Or.inl (by decide)),
    C3_fatal_input_checks.2 "" [] [] (by decide)⟩

/-- C5 (amended): the pickBetter resolver of part_000 implements exactly
the spec's precedence — it returns the incoming record precisely when the
incoming record's (link-valid, has-image, title-length) key is strictly
greater in the lexicographic order, and otherwise keeps the first-seen
record; the scripts/sync_products.mjs pipeline instead keeps the last-seen
record on a collision (see its counterexample). -/
theorem C5_resolver_refines_spec (e i : SyncP0.PItem) :
    SyncP0.pickBetter (some e) i = SyncP0.specResolve e i :=
  SyncP0.pickBetter_eq_specResolve e i

/-- C9 (amended): the resolver pick is order-independent whenever the two
candidates differ on the (link-valid, has-image, title-length) key; on a
full tie the first-seen record is kept, so the pick follows feed order. -/
theorem C9_resolver_order_independent (x y : SyncP0.PItem)
    (h : SyncP0.rank x ≠ SyncP0.rank y) :
    SyncP0.pickBetter (some x) y = SyncP0.pickBetter (some y) x := by
  rw [SyncP0.pickBetter_eq_specResolve, SyncP0.pickBetter_eq_specResolve]
  unfold SyncP0.specResolve
  cases hxy : SyncP0.rankLt (SyncP0.rank x) (SyncP0.rank y)
  · cases hyx : SyncP0.rankLt (SyncP0.rank y) (SyncP0.rank x)
    · exact absurd (SyncP0.rankLt_total _ _ hxy hyx) h
    · simp
  · rw [SyncP0.rankLt_asymm _ _ hxy]
    simp

/-- C9 witness: two candidates differing in link validity resolve to the
same winner in either order. -/
theorem C9_witness :
    SyncP0.rank ⟨"US", "A1", "t", "http://a.example", "", none⟩ ≠
        SyncP0.rank ⟨"US", "A1", "t", "", "", none⟩ ∧
    SyncP0.pickBetter (some ⟨"US", "A1", "t", "http://a.example", "", none⟩)
        ⟨"US", "A1", "t", "", "", none⟩ =
      SyncP0.pickBetter (some ⟨"US", "A1", "t", "", "", none⟩)
        ⟨"US", "A1", "t", "http://a.example", "", none⟩ :=
  ⟨by decide, C9_resolver_order_independent _ _ (by decide)⟩

/-- C10: both CSV parsers are total functions, and an opening double quote
with no matching closing quote consumes the whole remainder of the input as
one field of the final row instead of failing (in the scripts variant the
final row survives the trailing-empty-row sweep whenever the field does not
trim to empty; in part_000 it survives whenever it is nonempty). -/
theorem C10_parser_unterminated_quote (t : List Char) (d : Char)
    (h : ∀ c ∈ t, c ≠ '"') :
    (SyncCsv.normStr (String.mk t) ≠ "" →
      SyncCsv.parseCSV (String.mk ('"' :: t)) d = [[String.mk t]]) ∧
    (t ≠ [] → SyncP0.parseCSV (String.mk ('"' :: t)) = [[String.mk t]]) := by
  constructor
  · intro hne
    unfold SyncCsv.parseCSV
    have hdata : (String.mk ('"' :: t)).data = '"' :: t := rfl
    rw [hdata, SyncCsv.csvLoop.eq_5, if_pos rfl, SyncCsv.csvLoop_open_quoteD d t [] [] []
      h]
    have hrow : SyncCsv.rowAllEmpty [String.mk t] = false := by
      simp [SyncCsv.rowAllEmpty, hne]
    simp [hrow]
  · intro hne
    unfold SyncP0.parseCSV
    have hdata : (String.mk ('"' :: t)).data = '"' :: t := rfl
    rw [hdata, SyncP0.csvLoop.eq_5, if_pos rfl, SyncP0.csvLoop_open_quote0 t [] [] [] h]
    simp [hne]

/-- C10 witness: the input consisting of a double quote followed by abc
parses to the single row with the single field abc under both parsers. -/
theorem C10_witness :
    SyncCsv.parseCSV (String.mk ('"' :: ['a', 'b', 'c'])) ',' = [[String.mk ['a', 'b', 'c']]] ∧
    SyncP0.parseCSV (String.mk ('"' :: ['a', 'b', 'c'])) = [[String.mk ['a', 'b', 'c']]] :=
  ⟨(C10_parser_unterminated_quote ['a', 'b', 'c'] ',' (by decide)).1 (by decide),
    (C10_parser_unterminated_quote ['a', 'b', 'c'] ',' (by decide)).2 (by decide)⟩

/-! ## Further map lemmas -/

namespace JsMap

theorem jhas_iff_mem_jkeys {α : Type} {m : JsMap α} {k : String} :
    jhas m k = true ↔ k ∈ jkeys m := by
  rw [jhas_iff]
  constructor
  · rintro ⟨v, hv⟩
    exact List.mem_map.mpr ⟨(k, v), hv, rfl⟩
  · intro h
    rcases List.mem_map.mp h with ⟨kv, hmem, hk⟩
    exact ⟨kv.2, by rwa [show (k, kv.2) = kv from Prod.ext hk.symm rfl]⟩

theorem jkeys_jset {α : Type} (m : JsMap α) (k : String) (v : α) :
    jkeys (jset m k v) = if jhas m k = true then jkeys m else jkeys m ++ [k] := by
  induction m with
  | nil => simp [jset, jhas, jkeys]
  | cons hd tl ih =>
    rw [jset]
    by_cases hk : hd.1 = k
    · rw [if_pos hk]
      have : jhas (hd :: tl) k = true := by
        simp [jhas, hk]
      simp [this, jkeys]
    · rw [if_neg hk]
      have hhd : jhas (hd :: tl) k = jhas tl k := by
        simp [jhas, hk]
      rw [jkeys, List.map_cons]
      by_cases htl : jhas tl k = true
      · simp [hhd, htl, jkeys] at *
        simp [ih]
      · simp only [hhd, htl, if_false, if_neg htl] at *
        simp [jkeys] at *
        simp [ih]

theorem nodup_jkeys_jset {α : Type} {m : JsMap α} {k : String} {v : α}
    (h : (jkeys m).Nodup) : (jkeys (jset m k v)).Nodup := by
  rw [jkeys_jset]
  by_cases hk : jhas m k = true
  · simpa [hk] using h
  · have hk2 : k ∉ jkeys m := fun hmem => hk (jhas_iff_mem_jkeys.mpr hmem)
    simp [hk, List.nodup_append, h, hk2]

end JsMap

/-! ## Lemmas about the part_000 row loop -/

namespace SyncP0

theorem applyRow_active_jhas {st : P0State} {rc : RowClass} {k : String}
    (h : jhas (applyRow st rc).activeMap k = true) :
    jhas st.activeMap k = true ∨ ∃ i, rc = .active i ∧ keyOf i = k := by
  cases rc with
  | skip => exact Or.inl h
  | nonAmazon i =>
    left
    simp only [applyRow] at h
    split at h <;> simpa using h
  | inactive i =>
    left
    simp only [applyRow] at h
    split at h <;> simpa using h
  | active i =>
    cases hjg : jget? st.activeMap (keyOf i) with
    | none =>
      simp only [applyRow, hjg] at h
      rcases jhas_jset_iff.mp h with h1 | h1
      · exact Or.inr ⟨i, rfl, h1.symm⟩
      · exact Or.inl h1
    | some e =>
      simp only [applyRow, hjg] at h
      rcases jhas_jset_iff.mp h with h1 | h1
      · exact Or.inr ⟨i, rfl, h1.symm⟩
      · exact Or.inl h1

theorem applyRow_archive_jhas {st : P0State} {rc : RowClass} {k : String}
    (h : jhas (applyRow st rc).archiveMap k = true) :
    jhas st.archiveMap k = true ∨
      ∃ i, (rc = .nonAmazon i ∨ rc = .inactive i) ∧ keyOf i = k := by
  cases rc with
  | skip => exact Or.inl h
  | nonAmazon i =>
    simp only [applyRow] at h
    split at h
    · exact Or.inl h
    · rcases jhas_jset_iff.mp (by simpa using h) with h1 | h1
      · exact Or.inr ⟨i, Or.inl rfl, h1.symm⟩
      · exact Or.inl h1
  | inactive i =>
    simp only [applyRow] at h
    split at h
    · exact Or.inl h
    · rcases jhas_jset_iff.mp (by simpa using h) with h1 | h1
      · exact Or.inr ⟨i, Or.inr rfl, h1.symm⟩
      · exact Or.inl h1
  | active i =>
    left
    cases hjg : jget? st.activeMap (keyOf i) with
    | none => simpa [applyRow, hjg] using h
    | some e => simpa [applyRow, hjg] using h

theorem applyRow_archive_mono {st : P0State} {rc : RowClass} {k : String}
    (h : jhas st.archiveMap k = true) :
    jhas (applyRow st rc).archiveMap k = true := by
  cases rc with
  | skip => exact h
  | nonAmazon i =>
    simp only [applyRow]
    split
    · exact h
    · simpa using jhas_jset_iff.mpr (Or.inr h)
  | inactive i =>
    simp only [applyRow]
    split
    · exact h
    · simpa using jhas_jset_iff.mpr (Or.inr h)
  | active i =>
    cases hjg : jget? st.activeMap (keyOf i) with
    | none => simpa [applyRow, hjg] using h
    | some e => simpa [applyRow, hjg] using h

theorem applyRow_archive_jget {st : P0State} {rc : RowClass} {k : String} {v : PItem}
    (h : jget? st.archiveMap k = some v) :
    jget? (applyRow st rc).archiveMap k = some v := by
  cases rc with
  | skip => exact h
  | nonAmazon i =>
    simp only [applyRow]
    split
    · exact h
    · next hj =>
      have hne : k ≠ keyOf i := fun he => hj (he ▸ jhas_of_jget? h)
      simpa [jget?_jset_ne _ _ hne] using h
  | inactive i =>
    simp only [applyRow]
    split
    · exact h
    · next hj =>
      have hne : k ≠ keyOf i := fun he => hj (he ▸ jhas_of_jget? h)
      simpa [jget?_jset_ne _ _ hne] using h
  | active i =>
    cases hjg : jget? st.activeMap (keyOf i) with
    | none => simpa [applyRow, hjg] using h
    | some e => simpa [applyRow, hjg] using h

theorem applyRow_archive_value {st : P0State} {rc : RowClass} {k : String} {v : PItem}
    (h : jget? (applyRow st rc).archiveMap k = some v) :
    jget? st.archiveMap k = some v ∨
      ∃ i, (rc = .nonAmazon i ∨ rc = .inactive i) ∧ v = i ∧ keyOf i = k := by
  cases rc with
  | skip => exact Or.inl h
  | nonAmazon i =>
    simp only [applyRow] at h
    split at h
    · exact Or.inl h
    · by_cases he : k = keyOf i
      · subst he
        rw [jget?_jset_self] at h
        exact Or.inr ⟨i, Or.inl rfl, ((Option.some.injEq _ _).mp h).symm, rfl⟩
      · rw [show jget? (jset st.archiveMap (keyOf i) i) k = jget? st.archiveMap k from
          jget?_jset_ne _ _ he] at h
        exact Or.inl h
  | inactive i =>
    simp only [applyRow] at h
    split at h
    · exact Or.inl h
    · by_cases he : k = keyOf i
      · subst he
        rw [jget?_jset_self] at h
        exact Or.inr ⟨i, Or.inr rfl, ((Option.some.injEq _ _).mp h).symm, rfl⟩
      · rw [show jget? (jset st.archiveMap (keyOf i) i) k = jget? st.archiveMap k from
          jget?_jset_ne _ _ he] at h
        exact Or.inl h
  | active i =>
    left
    cases hjg : jget? st.activeMap (keyOf i) with
    | none => simpa [applyRow, hjg] using h
    | some e => simpa [applyRow, hjg] using h

theorem foldRows_cons (headers : List String) (st : P0State) (r : List String)
    (l : List (List String)) :
    foldRows headers st (r :: l) = foldRows headers (applyRow st (classifyRow headers r)) l := rfl

theorem foldRows_active_origin (headers : List String) (l : List (List String)) :
    ∀ (st : P0State) (k : String), jhas (foldRows headers st l).activeMap k = true →
      jhas st.activeMap k = true ∨
        ∃ r ∈ l, ∃ i, classifyRow headers r = .active i ∧ keyOf i = k := by
  induction l with
  | nil => intro st k h; exact Or.inl h
  | cons r l ih =>
    intro st k h
    rw [foldRows_cons] at h
    rcases ih _ k h with h1 | ⟨r2, hr2, i, hc, hk⟩
    · rcases applyRow_active_jhas h1 with h2 | ⟨i, hc, hk⟩
      · exact Or.inl h2
      · exact Or.inr ⟨r, List.mem_cons_self _ _, i, hc ▸ rfl, hk⟩
    · exact Or.inr ⟨r2, List.mem_cons_of_mem _ hr2, i, hc, hk⟩

theorem foldRows_archive_origin (headers : List String) (l : List (List String)) :
    ∀ (st : P0State) (k : String), jhas (foldRows headers st l).archiveMap k = true →
      jhas st.archiveMap k = true ∨
        ∃ r ∈ l, ∃ i, (classifyRow headers r = .nonAmazon i ∨ classifyRow headers r = .inactive i) ∧
          keyOf i = k := by
  induction l with
  | nil => intro st k h; exact Or.inl h
  | cons r l ih =>
    intro st k h
    rw [foldRows_cons] at h
    rcases ih _ k h with h1 | ⟨r2, hr2, i, hc, hk⟩
    · rcases applyRow_archive_jhas h1 with h2 | ⟨i, hc, hk⟩
      · exact Or.inl h2
      · exact Or.inr ⟨r, List.mem_cons_self _ _, i, by cases hc <;> simp_all, hk⟩
    · exact Or.inr ⟨r2, List.mem_cons_of_mem _ hr2, i, hc, hk⟩

theorem foldRows_archive_mono (headers : List String) (l : List (List String)) :
    ∀ (st : P0State) (k : String), jhas st.archiveMap k = true →
      jhas (foldRows headers st l).archiveMap k = true := by
  induction l with
  | nil => intro st k h; exact h
  | cons r l ih =>
    intro st k h
    rw [foldRows_cons]
    exact ih _ k (applyRow_archive_mono h)

theorem foldRows_archive_jget (headers : List String) (l : List (List String)) :
    ∀ (st : P0State) (k : String) (v : PItem), jget? st.archiveMap k = some v →
      jget? (foldRows headers st l).archiveMap k = some v := by
  induction l with
  | nil => intro st k v h; exact h
  | cons r l ih =>
    intro st k v h
    rw [foldRows_cons]
    exact ih _ k v (applyRow_archive_jget h)

theorem foldRows_archive_value (headers : List String) (l : List (List String)) :
    ∀ (st : P0State) (k : String) (v : PItem),
      jget? (foldRows headers st l).archiveMap k = some v →
      jget? st.archiveMap k = some v ∨
        ∃ r ∈ l, ∃ i, (classifyRow headers r = .nonAmazon i ∨ classifyRow headers r = .inactive i) ∧
          v = i ∧ keyOf i = k := by
  induction l with
  | nil => intro st k v h; exact Or.inl h
  | cons r l ih =>
    intro st k v h
    rw [foldRows_cons] at h
    rcases ih _ k v h with h1 | ⟨r2, hr2, i, hc, hv, hk⟩
    · rcases applyRow_archive_value h1 with h2 | ⟨i, hc, hv, hk⟩
      · exact Or.inl h2
      · exact Or.inr ⟨r, List.mem_cons_self _ _, i, by cases hc <;> simp_all, hv, hk⟩
    · exact Or.inr ⟨r2, List.mem_cons_of_mem _ hr2, i, hc, hv, hk⟩

theorem foldRows_archive_created (headers : List String) (l : List (List String)) :
    ∀ (st : P0State) (r : List String) (i : PItem), r ∈ l →
      (classifyRow headers r = .nonAmazon i ∨ classifyRow headers r = .inactive i) →
      jhas (foldRows headers st l).archiveMap (keyOf i) = true := by
  induction l with
  | nil => intro st r i h; exact absurd h (List.not_mem_nil _)
  | cons r2 l ih =>
    intro st r i hmem hc
    rcases List.mem_cons.mp hmem with he | hmem2
    · subst he
      rw [foldRows_cons]
      apply foldRows_archive_mono
      rcases hc with hc | hc <;>
        · rw [hc]
          simp only [applyRow]
          split
          · next hj => exact hj
          · exact jhas_jset_self _ _ _
    · rw [foldRows_cons]
      exact ih _ r i hmem2 hc

theorem pickBetter_cases (e i : PItem) :
    pickBetter (some e) i = e ∨ pickBetter (some e) i = i := by
  simp only [pickBetter]
  split
  · exact Or.inr rfl
  · split
    · exact Or.inr rfl
    · split
      · exact Or.inr rfl
      · exact Or.inl rfl

theorem applyRow_active_good {st : P0State} {rc : RowClass}
    (h : ∀ kv ∈ st.activeMap, keyOf kv.2 = kv.1) :
    ∀ kv ∈ (applyRow st rc).activeMap, keyOf kv.2 = kv.1 := by
  cases rc with
  | skip => exact h
  | nonAmazon i =>
    simp only [applyRow]
    split
    · exact h
    · exact h
  | inactive i =>
    simp only [applyRow]
    split
    · exact h
    · exact h
  | active i =>
    cases hjg : jget? st.activeMap (keyOf i) with
    | none =>
      simp only [applyRow, hjg]
      intro kv hkv
      rcases mem_jset hkv with he | hm
      · rw [he]
      · exact h kv hm
    | some e =>
      simp only [applyRow, hjg]
      intro kv hkv
      rcases mem_jset hkv with he | hm
      · rw [he]
        rcases pickBetter_cases e i with hp | hp
        · rw [hp]
          exact h (keyOf i, e) (by
            have := jget?_eq_some_mem hjg
            simpa using this)
        · rw [hp]
      · exact h kv hm

theorem applyRow_archive_good {st : P0State} {rc : RowClass}
    (h : ∀ kv ∈ st.archiveMap, keyOf kv.2 = kv.1) :
    ∀ kv ∈ (applyRow st rc).archiveMap, keyOf kv.2 = kv.1 := by
  cases rc with
  | skip => exact h
  | nonAmazon i =>
    simp only [applyRow]
    split
    · exact h
    · intro kv hkv
      rcases mem_jset hkv with he | hm
      · rw [he]
      · exact h kv hm
  | inactive i =>
    simp only [applyRow]
    split
    · exact h
    · intro kv hkv
      rcases mem_jset hkv with he | hm
      · rw [he]
      · exact h kv hm
  | active i =>
    cases hjg : jget? st.activeMap (keyOf i) with
    | none => simpa [applyRow, hjg] using h
    | some e => simpa [applyRow, hjg] using h

theorem foldRows_active_good (headers : List String) (l : List (List String)) :
    ∀ (st : P0State), (∀ kv ∈ st.activeMap, keyOf kv.2 = kv.1) →
      ∀ kv ∈ (foldRows headers st l).activeMap, keyOf kv.2 = kv.1 := by
  induction l with
  | nil => intro st h; exact h
  | cons r l ih =>
    intro st h
    rw [foldRows_cons]
    exact ih _ (applyRow_active_good h)

theorem foldRows_archive_good (headers : List String) (l : List (List String)) :
    ∀ (st : P0State), (∀ kv ∈ st.archiveMap, keyOf kv.2 = kv.1) →
      ∀ kv ∈ (foldRows headers st l).archiveMap, keyOf kv.2 = kv.1 := by
  induction l with
  | nil => intro st h; exact h
  | cons r l ih =>
    intro st h
    rw [foldRows_cons]
    exact ih _ (applyRow_archive_good h)

theorem buildMap_jhas (l : List PItem) :
    ∀ (m : JsMap PItem) (k : String),
      jhas (l.foldl (fun m p => jset m (keyOf p) p) m) k = true ↔
        jhas m k = true ∨ ∃ p ∈ l, keyOf p = k := by
  induction l with
  | nil =>
    intro m k
    simp
  | cons p l ih =>
    intro m k
    rw [List.foldl_cons, ih]
    constructor
    · rintro (h | ⟨q, hq, hk⟩)
      · rcases jhas_jset_iff.mp h with h1 | h1
        · exact Or.inr ⟨p, List.mem_cons_self _ _, h1.symm⟩
        · exact Or.inl h1
      · exact Or.inr ⟨q, List.mem_cons_of_mem _ hq, hk⟩
    · rintro (h | ⟨q, hq, hk⟩)
      · exact Or.inl (jhas_jset_iff.mpr (Or.inr h))
      · rcases List.mem_cons.mp hq with he | hm
        · exact Or.inl (jhas_jset_iff.mpr (Or.inl (he ▸ hk).symm))
        · exact Or.inr ⟨q, hm, hk⟩

theorem buildMap_entry (l : List PItem) :
    ∀ (m : JsMap PItem) (kv : String × PItem),
      kv ∈ l.foldl (fun m p => jset m (keyOf p) p) m →
      kv ∈ m ∨ ∃ p ∈ l, kv = (keyOf p, p) := by
  induction l with
  | nil =>
    intro m kv h
    exact Or.inl h
  | cons p l ih =>
    intro m kv h
    rw [List.foldl_cons] at h
    rcases ih _ kv h with h1 | ⟨q, hq, he⟩
    · rcases mem_jset h1 with he | hm
      · exact Or.inr ⟨p, List.mem_cons_self _ _, he⟩
      · exact Or.inl hm
    · exact Or.inr ⟨q, List.mem_cons_of_mem _ hq, he⟩

theorem buildMap_good (l : List PItem) (kv : String × PItem) (h : kv ∈ buildMap l) :
    keyOf kv.2 = kv.1 := by
  rcases buildMap_entry l [] kv h with h1 | ⟨p, _, he⟩
  · exact absurd h1 (List.not_mem_nil _)
  · rw [he]

theorem foldStep4_mono (nextKeys : List String) (entries : JsMap PItem) :
    ∀ (m : JsMap PItem) (k : String), jhas m k = true →
      jhas (foldStep4 nextKeys m entries) k = true := by
  induction entries with
  | nil => intro m k h; exact h
  | cons kv l ih =>
    intro m k h
    unfold foldStep4 at *
    rw [List.foldl_cons]
    split
    · exact ih m k h
    · split
      · exact ih m k h
      · exact ih _ k (jhas_jset_iff.mpr (Or.inr h))

theorem foldStep4_jget (nextKeys : List String) (entries : JsMap PItem) :
    ∀ (m : JsMap PItem) (k : String) (v : PItem), jget? m k = some v →
      jget? (foldStep4 nextKeys m entries) k = some v := by
  induction entries with
  | nil => intro m k v h; exact h
  | cons kv l ih =>
    intro m k v h
    unfold foldStep4 at *
    rw [List.foldl_cons]
    split
    · exact ih m k v h
    · split
      · exact ih m k v h
      · next hj =>
        have hne : k ≠ kv.1 := fun he => hj (he ▸ jhas_of_jget? h)
        exact ih _ k v (by rw [jget?_jset_ne _ _ hne]; exact h)

theorem foldStep4_covers (nextKeys : List String) (entries : JsMap PItem) :
    ∀ (m : JsMap PItem) (kv : String × PItem), kv ∈ entries →
      shas nextKeys kv.1 = false →
      jhas (foldStep4 nextKeys m entries) kv.1 = true := by
  induction entries with
  | nil => intro m kv h; exact absurd h (List.not_mem_nil _)
  | cons kv2 l ih =>
    intro m kv hmem hs
    rcases List.mem_cons.mp hmem with he | hm
    · subst he
      unfold foldStep4
      rw [List.foldl_cons]
      rw [hs]
      simp only [Bool.false_eq_true, if_false]
      split
      · next hj => exact foldStep4_mono nextKeys l m kv.1 hj
      · exact foldStep4_mono nextKeys l _ kv.1 (jhas_jset_self _ _ _)
    · unfold foldStep4
      rw [List.foldl_cons]
      exact ih _ kv hm hs

theorem foldStep4_origin (nextKeys : List String) (entries : JsMap PItem) :
    ∀ (m : JsMap PItem) (k : String), jhas (foldStep4 nextKeys m entries) k = true →
      jhas m k = true ∨ shas nextKeys k = false := by
  induction entries with
  | nil => intro m k h; exact Or.inl h
  | cons kv l ih =>
    intro m k h
    unfold foldStep4 at h
    rw [List.foldl_cons] at h
    by_cases hs : shas nextKeys kv.1 = true
    · rw [if_pos hs] at h
      exact ih m k h
    · rw [if_neg hs] at h
      split at h
      · exact ih m k h
      · rcases ih _ k h with h1 | h1
        · rcases jhas_jset_iff.mp h1 with he | hm
          · exact Or.inr (he ▸ Bool.not_eq_true _ ▸ (Bool.eq_false_iff.mpr hs))
          · exact Or.inl hm
        · exact Or.inr h1

theorem foldStep4_value (nextKeys : List String) (entries : JsMap PItem) :
    ∀ (m : JsMap PItem) (k : String) (v : PItem),
      jget? (foldStep4 nextKeys m entries) k = some v →
      jget? m k = some v ∨ (k, v) ∈ entries := by
  induction entries with
  | nil => intro m k v h; exact Or.inl h
  | cons kv l ih =>
    intro m k v h
    unfold foldStep4 at h
    rw [List.foldl_cons] at h
    split at h
    · rcases ih m k v h with h1 | h1
      · exact Or.inl h1
      · exact Or.inr (List.mem_cons_of_mem _ h1)
    · split at h
      · rcases ih m k v h with h1 | h1
        · exact Or.inl h1
        · exact Or.inr (List.mem_cons_of_mem _ h1)
      · rcases ih _ k v h with h1 | h1
        · by_cases he : k = kv.1
          · subst he
            rw [jget?_jset_self] at h1
            exact Or.inr (List.mem_cons.mpr (Or.inl
              (Prod.ext rfl ((Option.some.injEq _ _).mp h1).symm)))
          · rw [jget?_jset_ne _ _ he] at h1
            exact Or.inl h1
        · exact Or.inr (List.mem_cons_of_mem _ h1)

theorem foldStep4_good (nextKeys : List String) (entries : JsMap PItem) :
    ∀ (m : JsMap PItem), (∀ kv ∈ m, keyOf kv.2 = kv.1) →
      (∀ kv ∈ entries, keyOf kv.2 = kv.1) →
      ∀ kv ∈ foldStep4 nextKeys m entries, keyOf kv.2 = kv.1 := by
  induction entries with
  | nil => intro m hm _; exact hm
  | cons kv2 l ih =>
    intro m hm he
    unfold foldStep4 at *
    rw [List.foldl_cons]
    have he2 : ∀ kv ∈ l, keyOf kv.2 = kv.1 := fun kv hkv => he kv (List.mem_cons_of_mem _ hkv)
    split
    · exact ih m hm he2
    · split
      · exact ih m hm he2
      · refine ih _ ?_ he2
        intro kv hkv
        rcases mem_jset hkv with h1 | h1
        · rw [h1]
          exact he kv2 (List.mem_cons_self _ _)
        · exact hm kv h1

theorem mem_map_keyOf_sortItems {m : JsMap PItem} (hg : ∀ kv ∈ m, keyOf kv.2 = kv.1)
    {k : String} : k ∈ (sortItems (jvalues m)).map keyOf ↔ jhas m k = true := by
  have hperm : List.Perm (sortItems (jvalues m)) (jvalues m) := List.perm_insertionSort _ _
  rw [List.mem_map]
  constructor
  · rintro ⟨v, hv, hk⟩
    rcases mem_jvalues.mp (hperm.mem_iff.mp hv) with ⟨k2, hk2⟩
    have hkv := hg (k2, v) hk2
    rw [jhas_iff]
    exact ⟨v, by rw [← hk, hkv]; exact hk2⟩
  · intro h
    rcases jhas_iff.mp h with ⟨v, hv⟩
    exact ⟨v, hperm.mem_iff.mpr (mem_jvalues.mpr ⟨k, hv⟩), hg (k, v) hv⟩

theorem part000Process_def (headers : List String) (dataRows : List (List String))
    (prevProducts prevArchive : List PItem) :
    part000Process headers dataRows prevProducts prevArchive =
      (sortItems (jvalues (foldRows headers ⟨[], buildMap prevArchive, 0⟩ dataRows).activeMap),
        sortItems (jvalues (foldStep4
          ((sortItems
            (jvalues (foldRows headers ⟨[], buildMap prevArchive, 0⟩ dataRows).activeMap)).map keyOf)
          (foldRows headers ⟨[], buildMap prevArchive, 0⟩ dataRows).archiveMap
          (buildMap prevProducts)))) := rfl

theorem classifyRow_nonAmazon_reason {headers r : List String} {j : PItem}
    (h : classifyRow headers r = .nonAmazon j) :
    j.hiddenReason = some "non_amazon_numeric_asin" := by
  simp only [classifyRow] at h
  split at h
  · cases h
  · split at h
    · cases h
      rfl
    · split at h <;> cases h

theorem classifyRow_inactive_reason {headers r : List String} {j : PItem}
    (h : classifyRow headers r = .inactive j) :
    j.hiddenReason = some "inactive_status" := by
  simp only [classifyRow] at h
  split at h
  · cases h
  · split at h
    · cases h
    · split at h
      · cases h
      · cases h
        rfl

end SyncP0

open SyncP0 in
/-- C2 (amended): no silent loss in part_000 — every identity key of the
prior active set is present in at least one of the new active set or the
new archive set after a run (the counterexample shows it can be in both, so
"exactly one" is weakened to "at least one"). -/
theorem C2_no_silent_loss (headers : List String) (dataRows : List (List String))
    (prevProducts prevArchive : List PItem) (k : String)
    (h : ∃ p ∈ prevProducts, keyOf p = k) :
    k ∈ (part000Process headers dataRows prevProducts prevArchive).1.map keyOf ∨
      k ∈ (part000Process headers dataRows prevProducts prevArchive).2.map keyOf := by
  rw [part000Process_def]
  by_cases hk :
      shas ((sortItems
        (jvalues (foldRows headers ⟨[], buildMap prevArchive, 0⟩ dataRows).activeMap)).map keyOf)
        k = true
  · left
    exact shas_iff.mp hk
  · right
    have hpm : jhas (buildMap prevProducts) k = true := by
      rcases h with ⟨p, hp, hkp⟩
      exact (buildMap_jhas prevProducts [] k).mpr (Or.inr ⟨p, hp, hkp⟩)
    rcases jhas_iff.mp hpm with ⟨v, hv⟩
    have hfin := foldStep4_covers _ (buildMap prevProducts)
      (foldRows headers ⟨[], buildMap prevArchive, 0⟩ dataRows).archiveMap (k, v) hv
      (Bool.eq_false_iff.mpr hk)
    have hga : ∀ kv ∈ (foldRows headers ⟨[], buildMap prevArchive, 0⟩ dataRows).archiveMap,
        keyOf kv.2 = kv.1 :=
      foldRows_archive_good headers dataRows _ (fun kv hkv => buildMap_good prevArchive kv hkv)
    have hgood := foldStep4_good
      ((sortItems
        (jvalues (foldRows headers ⟨[], buildMap prevArchive, 0⟩ dataRows).activeMap)).map keyOf)
      (buildMap prevProducts) _ hga (fun kv hkv => buildMap_good prevProducts kv hkv)
    exact (mem_map_keyOf_sortItems hgood).mpr hfin

open SyncP0 in
/-- C2 witness: a prior-active key absent from an empty feed is found in
the archive output. -/
theorem C2_witness :
    "US|ABC" ∈ (part000Process ["market", "asin"] [] [⟨"US", "ABC", "", "", "", none⟩] []).1.map keyOf ∨
      "US|ABC" ∈ (part000Process ["market", "asin"] [] [⟨"US", "ABC", "", "", "", none⟩] []).2.map keyOf :=
  C2_no_silent_loss ["market", "asin"] [] [⟨"US", "ABC", "", "", "", none⟩] [] "US|ABC"
    ⟨⟨"US", "ABC", "", "", "", none⟩, List.mem_cons_self _ _, by decide⟩

open SyncP0 in
/-- C1 (amended): mutual exclusion in part_000 under the two conditions the
counterexample forces: the prior archive is empty and no identity key is
classified both active and excluded/offline within the same feed.  Then a
key of the new active set is never in the new archive set. -/
theorem C1_mutual_exclusion (headers : List String) (dataRows : List (List String))
    (prevProducts : List PItem) (k : String)
    (hcons : ∀ r ∈ dataRows, ∀ r2 ∈ dataRows, ∀ i j,
      classifyRow headers r = .active i →
      (classifyRow headers r2 = .nonAmazon j ∨ classifyRow headers r2 = .inactive j) →
      keyOf i ≠ keyOf j)
    (hact : k ∈ (part000Process headers dataRows prevProducts []).1.map keyOf) :
    k ∉ (part000Process headers dataRows prevProducts []).2.map keyOf := by
  rw [part000Process_def] at hact ⊢
  intro harch
  have hgactive : ∀ kv ∈ (foldRows headers ⟨[], buildMap [], 0⟩ dataRows).activeMap,
      keyOf kv.2 = kv.1 :=
    foldRows_active_good headers dataRows _ (by intro kv hkv; exact absurd hkv (List.not_mem_nil _))
  have hka : jhas (foldRows headers ⟨[], buildMap [], 0⟩ dataRows).activeMap k = true :=
    (mem_map_keyOf_sortItems hgactive).mp hact
  rcases foldRows_active_origin headers dataRows _ k hka with h0 | ⟨r, hr, i, hci, hki⟩
  · simp [jhas, buildMap] at h0
  · have hgarch : ∀ kv ∈ (foldRows headers ⟨[], buildMap [], 0⟩ dataRows).archiveMap,
        keyOf kv.2 = kv.1 :=
      foldRows_archive_good headers dataRows _
        (by intro kv hkv; exact absurd hkv (List.not_mem_nil _))
    have hgfin := foldStep4_good
      ((sortItems (jvalues (foldRows headers ⟨[], buildMap [], 0⟩ dataRows).activeMap)).map keyOf)
      (buildMap prevProducts) _ hgarch (fun kv hkv => buildMap_good prevProducts kv hkv)
    have hkarch := (mem_map_keyOf_sortItems hgfin).mp harch
    rcases foldStep4_origin _ (buildMap prevProducts) _ k hkarch with h1 | h1
    · rcases foldRows_archive_origin headers dataRows _ k h1 with h2 | ⟨r2, hr2, j, hcj, hkj⟩
      · simp [jhas, buildMap] at h2
      · exact hcons r hr r2 hr2 i j hci hcj (by rw [hki, hkj])
    · exact absurd (shas_iff.mpr hact) (by simp [h1])

open SyncP0 in
/-- C1 witness: with no prior archive and a feed with one active row,
the active key is absent from the archive output. -/
theorem C1_witness :
    "US|ABC" ∉ (part000Process ["market", "asin"] [["US", "ABC"]] [] []).2.map keyOf :=
  C1_mutual_exclusion ["market", "asin"] [["US", "ABC"]] [] "US|ABC"
    (by
      intro r hr r2 hr2 i j hci hcj
      have hr1 : r = ["US", "ABC"] := by simpa using hr
      have hr3 : r2 = ["US", "ABC"] := by simpa using hr2
      subst hr1
      subst hr3
      rcases hcj with hcj | hcj <;> rw [hci] at hcj <;> cases hcj)
    (by decide)

namespace SyncP0

theorem classifyRow_nonAmazon_of_digits {headers r : List String}
    (hm : rowMarket headers r ≠ "") (hd : isAllDigits (rowAsin headers r) = true) :
    ∃ i, classifyRow headers r = .nonAmazon i := by
  have ha : rowAsin headers r ≠ "" := by
    intro he
    rw [he] at hd
    exact absurd hd (by decide)
  simp only [classifyRow]
  rw [if_neg (not_or.mpr ⟨hm, ha⟩), if_pos (by simpa [isNonAmazonByAsin] using hd)]
  exact ⟨_, rfl⟩

end SyncP0

open SyncP0 in
/-- C4 (amended, part_000 side): a row with nonempty market and all-digit
asin is classified structurally excluded irrespective of its status field
(the numeric-asin check precedes the status check), and — with an empty
prior archive and no colliding active or offline-classified row — its key
is absent from the new active set and present in the new archive tagged
non_amazon_numeric_asin.  The scripts/sync_products.mjs pipeline has no
structural exclusion at all (see the counterexample). -/
theorem C4_structural_exclusion_priority (headers : List String)
    (dataRows : List (List String)) (prevProducts : List PItem) (r : List String)
    (hr : r ∈ dataRows)
    (hm : rowMarket headers r ≠ "")
    (hd : isAllDigits (rowAsin headers r) = true)
    (hact : ∀ r2 ∈ dataRows, ∀ i j, classifyRow headers r = .nonAmazon i →
      classifyRow headers r2 = .active j → keyOf j ≠ keyOf i)
    (hinact : ∀ r2 ∈ dataRows, ∀ i j, classifyRow headers r = .nonAmazon i →
      classifyRow headers r2 = .inactive j → keyOf j ≠ keyOf i) :
    ∃ i, classifyRow headers r = .nonAmazon i ∧
      i.hiddenReason = some "non_amazon_numeric_asin" ∧
      keyOf i ∉ (part000Process headers dataRows prevProducts []).1.map keyOf ∧
      ∃ v ∈ (part000Process headers dataRows prevProducts []).2,
        keyOf v = keyOf i ∧ v.hiddenReason = some "non_amazon_numeric_asin" := by
  rcases classifyRow_nonAmazon_of_digits hm hd with ⟨i, hci⟩
  refine ⟨i, hci, classifyRow_nonAmazon_reason hci, ?_, ?_⟩
  · rw [part000Process_def]
    intro hmem
    have hgactive : ∀ kv ∈ (foldRows headers ⟨[], buildMap [], 0⟩ dataRows).activeMap,
        keyOf kv.2 = kv.1 :=
      foldRows_active_good headers dataRows _
        (by intro kv hkv; exact absurd hkv (List.not_mem_nil _))
    have hka := (mem_map_keyOf_sortItems hgactive).mp hmem
    rcases foldRows_active_origin headers dataRows _ (keyOf i) hka with h0 | ⟨r2, hr2, j, hcj, hkj⟩
    · simp [jhas, buildMap] at h0
    · exact hact r2 hr2 i j hci hcj hkj
  · rw [part000Process_def]
    have hhas := foldRows_archive_created headers dataRows ⟨[], buildMap [], 0⟩ r i hr (Or.inl hci)
    rcases jget?_of_jhas hhas with ⟨v, hv⟩
    have hvfin := foldStep4_jget
      ((sortItems (jvalues (foldRows headers ⟨[], buildMap [], 0⟩ dataRows).activeMap)).map keyOf)
      (buildMap prevProducts) _ (keyOf i) v hv
    rcases foldRows_archive_value headers dataRows _ (keyOf i) v hv with h0 | ⟨r2, hr2, j, hcj, hvj, hkj⟩
    · simp [jget?, buildMap] at h0
    · rcases hcj with hcj | hcj
      · refine ⟨v, ?_, ?_, ?_⟩
        · exact (List.perm_insertionSort _ _).mem_iff.mpr
            (mem_jvalues.mpr ⟨keyOf i, jget?_eq_some_mem hvfin⟩)
        · have hgarch : ∀ kv ∈ (foldRows headers ⟨[], buildMap [], 0⟩ dataRows).archiveMap,
              keyOf kv.2 = kv.1 :=
            foldRows_archive_good headers dataRows _
              (by intro kv hkv; exact absurd hkv (List.not_mem_nil _))
          have hg := foldStep4_good
            ((sortItems
              (jvalues (foldRows headers ⟨[], buildMap [], 0⟩ dataRows).activeMap)).map keyOf)
            (buildMap prevProducts) _ hgarch
            (fun kv hkv => buildMap_good prevProducts kv hkv)
          exact hg (keyOf i, v) (jget?_eq_some_mem hvfin)
        · rw [hvj]
          exact classifyRow_nonAmazon_reason hcj
      · exact absurd hkj (hinact r2 hr2 i j hci hcj)

open SyncP0 in
/-- C4 witness: the feed row DE / 1234567 / active is structurally
excluded, archived with the non-amazon reason and kept out of the active
set. -/
theorem C4_witness :
    ∃ i, classifyRow ["market", "asin", "status"] ["DE", "1234567", "active"] = .nonAmazon i ∧
      i.hiddenReason = some "non_amazon_numeric_asin" ∧
      keyOf i ∉ (part000Process ["market", "asin", "status"] [["DE", "1234567", "active"]]
        [] []).1.map keyOf ∧
      ∃ v ∈ (part000Process ["market", "asin", "status"] [["DE", "1234567", "active"]] [] []).2,
        keyOf v = keyOf i ∧ v.hiddenReason = some "non_amazon_numeric_asin" :=
  C4_structural_exclusion_priority ["market", "asin", "status"] [["DE", "1234567", "active"]]
    [] ["DE", "1234567", "active"] (List.mem_cons_self _ _) (by decide) (by decide)
    (by
      intro r2 hr2 i j hci hcj
      have hr3 : r2 = ["DE", "1234567", "active"] := by simpa using hr2
      subst hr3
      rw [hci] at hcj
      cases hcj)
    (by
      intro r2 hr2 i j hci hcj
      have hr3 : r2 = ["DE", "1234567", "active"] := by simpa using hr2
      subst hr3
      rw [hci] at hcj
      cases hcj)

open SyncP0 in
/-- C6 (amended, part_000 side): the row loop's archive upserts happen
before the disappearance sweep, and the sweep never overwrites an existing
entry, so a key of the prior active set whose row is classified offline
this run — when the prior archive is empty and no colliding row is
structurally excluded — ends in the archive tagged inactive_status, not
with a disappearance tag.  In scripts/sync_products.mjs the sweep
overwrites unconditionally (see the counterexample). -/
theorem C6_offline_tag_wins_over_disappearance (headers : List String)
    (dataRows : List (List String)) (prevProducts : List PItem) (r : List String)
    (item : PItem) (hr : r ∈ dataRows)
    (hc : classifyRow headers r = .inactive item)
    (_hprev : ∃ p ∈ prevProducts, keyOf p = keyOf item)
    (hna : ∀ r2 ∈ dataRows, ∀ j, classifyRow headers r2 = .nonAmazon j →
      keyOf j ≠ keyOf item) :
    ∃ v ∈ (part000Process headers dataRows prevProducts []).2,
      keyOf v = keyOf item ∧ v.hiddenReason = some "inactive_status" := by
  rw [part000Process_def]
  have hhas := foldRows_archive_created headers dataRows ⟨[], buildMap [], 0⟩ r item hr (Or.inr hc)
  rcases jget?_of_jhas hhas with ⟨v, hv⟩
  have hvfin := foldStep4_jget
    ((sortItems (jvalues (foldRows headers ⟨[], buildMap [], 0⟩ dataRows).activeMap)).map keyOf)
    (buildMap prevProducts) _ (keyOf item) v hv
  rcases foldRows_archive_value headers dataRows _ (keyOf item) v hv with h0 | ⟨r2, hr2, j, hcj, hvj, hkj⟩
  · simp [jget?, buildMap] at h0
  · refine ⟨v, ?_, ?_, ?_⟩
    · exact (List.perm_insertionSort _ _).mem_iff.mpr
        (mem_jvalues.mpr ⟨keyOf item, jget?_eq_some_mem hvfin⟩)
    · have hgarch : ∀ kv ∈ (foldRows headers ⟨[], buildMap [], 0⟩ dataRows).archiveMap,
          keyOf kv.2 = kv.1 :=
        foldRows_archive_good headers dataRows _
          (by intro kv hkv; exact absurd hkv (List.not_mem_nil _))
      have hg := foldStep4_good
        ((sortItems (jvalues (foldRows headers ⟨[], buildMap [], 0⟩ dataRows).activeMap)).map keyOf)
        (buildMap prevProducts) _ hgarch
        (fun kv hkv => buildMap_good prevProducts kv hkv)
      exact hg (keyOf item, v) (jget?_eq_some_mem hvfin)
    · rcases hcj with hcj | hcj
      · exact absurd hkj (hna r2 hr2 j hcj)
      · rw [hvj]
        exact classifyRow_inactive_reason hcj

open SyncP0 in
/-- C6 witness: a prior-active record whose feed row carries status off is
archived with the inactive_status tag. -/
theorem C6_witness :
    ∃ v ∈ (part000Process ["market", "asin", "status"] [["US", "B01", "off"]]
        [⟨"US", "B01", "", "", "", none⟩] []).2,
      keyOf v = keyOf ⟨"US", "B01", "", "", "", some "inactive_status"⟩ ∧
      v.hiddenReason = some "inactive_status" :=
  C6_offline_tag_wins_over_disappearance ["market", "asin", "status"] [["US", "B01", "off"]]
    [⟨"US", "B01", "", "", "", none⟩] ["US", "B01", "off"]
    ⟨"US", "B01", "", "", "", some "inactive_status"⟩ (List.mem_cons_self _ _)
    (by decide)
    ⟨⟨"US", "B01", "", "", "", none⟩, List.mem_cons_self _ _, by decide⟩
    (by
      intro r2 hr2 j hcj
      have hr3 : r2 = ["US", "B01", "off"] := by simpa using hr2
      subst hr3
      have hc2 : classifyRow ["market", "asin", "status"] ["US", "B01", "off"] =
          .inactive ⟨"US", "B01", "", "", "", some "inactive_status"⟩ := by decide
      rw [hc2] at hcj
      cases hcj)

namespace SyncP0

theorem applyRow_active_nodup {st : P0State} {rc : RowClass}
    (h : (jkeys st.activeMap).Nodup) : (jkeys (applyRow st rc).activeMap).Nodup := by
  cases rc with
  | skip => exact h
  | nonAmazon i =>
    simp only [applyRow]
    split
    · exact h
    · exact h
  | inactive i =>
    simp only [applyRow]
    split
    · exact h
    · exact h
  | active i =>
    cases hjg : jget? st.activeMap (keyOf i) with
    | none =>
      simp only [applyRow, hjg]
      exact nodup_jkeys_jset h
    | some e =>
      simp only [applyRow, hjg]
      exact nodup_jkeys_jset h

theorem applyRow_archive_nodup {st : P0State} {rc : RowClass}
    (h : (jkeys st.archiveMap).Nodup) : (jkeys (applyRow st rc).archiveMap).Nodup := by
  cases rc with
  | skip => exact h
  | nonAmazon i =>
    simp only [applyRow]
    split
    · exact h
    · exact nodup_jkeys_jset h
  | inactive i =>
    simp only [applyRow]
    split
    · exact h
    · exact nodup_jkeys_jset h
  | active i =>
    cases hjg : jget? st.activeMap (keyOf i) with
    | none => simpa [applyRow, hjg] using h
    | some e => simpa [applyRow, hjg] using h

theorem foldRows_active_nodup (headers : List String) (l : List (List String)) :
    ∀ (st : P0State), (jkeys st.activeMap).Nodup →
      (jkeys (foldRows headers st l).activeMap).Nodup := by
  induction l with
  | nil => intro st h; exact h
  | cons r l ih =>
    intro st h
    rw [foldRows_cons]
    exact ih _ (applyRow_active_nodup h)

theorem foldRows_archive_nodup (headers : List String) (l : List (List String)) :
    ∀ (st : P0State), (jkeys st.archiveMap).Nodup →
      (jkeys (foldRows headers st l).archiveMap).Nodup := by
  induction l with
  | nil => intro st h; exact h
  | cons r l ih =>
    intro st h
    rw [foldRows_cons]
    exact ih _ (applyRow_archive_nodup h)

theorem buildMap_nodup (l : List PItem) :
    ∀ (m : JsMap PItem), (jkeys m).Nodup →
      (jkeys (l.foldl (fun m p => jset m (keyOf p) p) m)).Nodup := by
  induction l with
  | nil => intro m h; exact h
  | cons p l ih =>
    intro m h
    rw [List.foldl_cons]
    exact ih _ (nodup_jkeys_jset h)

theorem foldStep4_nodup (nextKeys : List String) (entries : JsMap PItem) :
    ∀ (m : JsMap PItem), (jkeys m).Nodup →
      (jkeys (foldStep4 nextKeys m entries)).Nodup := by
  induction entries with
  | nil => intro m h; exact h
  | cons kv l ih =>
    intro m h
    unfold foldStep4 at *
    rw [List.foldl_cons]
    split
    · exact ih m h
    · split
      · exact ih m h
      · exact ih _ (nodup_jkeys_jset h)

theorem nodup_map_keyOf_sortItems {m : JsMap PItem}
    (hg : ∀ kv ∈ m, keyOf kv.2 = kv.1) (hn : (jkeys m).Nodup) :
    ((sortItems (jvalues m)).map keyOf).Nodup := by
  have h1 : (jvalues m).map keyOf = jkeys m := by
    unfold jvalues jkeys
    rw [List.map_map]
    exact List.map_congr_left (fun kv hkv => hg kv hkv)
  have hperm : List.Perm ((sortItems (jvalues m)).map keyOf) ((jvalues m).map keyOf) :=
    (List.perm_insertionSort _ _).map keyOf
  rw [h1] at hperm
  exact hperm.nodup_iff.mpr hn

end SyncP0

open SyncP0 in
/-- C8 (amended): the part_000 identity key upper-cases both components —
records whose market and asin agree after upper-casing get the same key,
and each output of a run holds at most one record per key.  The makeKey of
scripts/sync_products.mjs upper-cases only the market (see the
counterexample). -/
theorem C8_key_case_insensitive_unique :
    (∀ p q : PItem, upper p.market = upper q.market → upper p.asin = upper q.asin →
      keyOf p = keyOf q) ∧
    (∀ (headers : List String) (dataRows : List (List String))
        (prevProducts prevArchive : List PItem),
      ((part000Process headers dataRows prevProducts prevArchive).1.map keyOf).Nodup ∧
      ((part000Process headers dataRows prevProducts prevArchive).2.map keyOf).Nodup) := by
  constructor
  · intro p q hm ha
    unfold keyOf
    rw [hm, ha]
  · intro headers dataRows prevProducts prevArchive
    rw [part000Process_def]
    constructor
    · exact nodup_map_keyOf_sortItems
        (foldRows_active_good headers dataRows _
          (by intro kv hkv; exact absurd hkv (List.not_mem_nil _)))
        (foldRows_active_nodup headers dataRows _ (by simp [jkeys]))
    · have hgarch : ∀ kv ∈ (foldRows headers ⟨[], buildMap prevArchive, 0⟩ dataRows).archiveMap,
          keyOf kv.2 = kv.1 :=
        foldRows_archive_good headers dataRows _
          (fun kv hkv => buildMap_good prevArchive kv hkv)
      exact nodup_map_keyOf_sortItems
        (foldStep4_good _ (buildMap prevProducts) _ hgarch
          (fun kv hkv => buildMap_good prevProducts kv hkv))
        (foldStep4_nodup _ (buildMap prevProducts) _
          (foldRows_archive_nodup headers dataRows _
            (buildMap_nodup prevArchive [] (by simp [jkeys]))))

open SyncP0 in
/-- C8 witness: two case-variants of the same identity produce the same
part_000 key. -/
theorem C8_witness :
    keyOf ⟨"us", "b01", "", "", "", none⟩ = keyOf ⟨"US", "B01", "", "", "", none⟩ :=
  C8_key_case_insensitive_unique.1 ⟨"us", "b01", "", "", "", none⟩
    ⟨"US", "B01", "", "", "", none⟩ (by decide) (by decide)

/-! ## Order lemmas for the output comparator -/

theorem ltChars_trans : ∀ x y z : List Char,
    ltChars x y = true → ltChars y z = true → ltChars x z = true
  | [], [], _, h1, _ => by simp [ltChars] at h1
  | [], _ :: _, [], _, h2 => by simp [ltChars] at h2
  | [], _ :: _, _ :: _, _, _ => by simp [ltChars]
  | _ :: _, [], _, h1, _ => by simp [ltChars] at h1
  | _ :: _, _ :: _, [], _, h2 => by simp [ltChars] at h2
  | a :: as, b :: bs, c :: cs, h1, h2 => by
    simp only [ltChars] at h1 h2 ⊢
    by_cases hab : a < b
    · by_cases hbc : b < c
      · simp [lt_trans hab hbc]
      · by_cases hcb : c < b
        · simp [hbc, hcb] at h2
        · have hbe : b = c := le_antisymm (not_lt.mp hcb) (not_lt.mp hbc)
          subst hbe
          simp [hab]
    · by_cases hba : b < a
      · simp [hab, hba] at h1
      · have hae : a = b := le_antisymm (not_lt.mp hba) (not_lt.mp hab)
        subst hae
        rw [if_neg hab, if_neg hba] at h1
        by_cases hbc : a < c
        · simp [hbc]
        · by_cases hcb : c < a
          · simp [hbc, hcb] at h2
          · rw [if_neg hbc, if_neg hcb] at h2 ⊢
            exact ltChars_trans as bs cs h1 h2

theorem ltChars_conn : ∀ x y : List Char,
    ltChars x y = false → ltChars y x = false → x = y
  | [], [], _, _ => rfl
  | [], _ :: _, h1, _ => by simp [ltChars] at h1
  | _ :: _, [], _, h2 => by simp [ltChars] at h2
  | a :: as, b :: bs, h1, h2 => by
    simp only [ltChars] at h1 h2
    by_cases hab : a < b
    · simp [hab] at h1
    · by_cases hba : b < a
      · simp [hba, hab] at h2
      · have hae : a = b := le_antisymm (not_lt.mp hba) (not_lt.mp hab)
        rw [if_neg hab, if_neg hba] at h1
        rw [if_neg hba, if_neg hab] at h2
        rw [hae, ltChars_conn as bs h1 h2]

theorem strLtB_trans {x y z : String} (h1 : strLtB x y = true) (h2 : strLtB y z = true) :
    strLtB x z = true :=
  ltChars_trans x.data y.data z.data h1 h2

theorem strLtB_conn {x y : String} (h1 : strLtB x y = false) (h2 : strLtB y x = false) :
    x = y :=
  String.ext (ltChars_conn x.data y.data h1 h2)

namespace SyncP0

theorem itemLe_total : ∀ a b : PItem, itemLe a b ∨ itemLe b a := by
  intro a b
  unfold itemLe itemLeB
  by_cases hm : strLtB a.market b.market = true
  · left
    simp [hm]
  · by_cases hm2 : strLtB b.market a.market = true
    · right
      simp [hm2]
    · have hme : a.market = b.market :=
        strLtB_conn (Bool.eq_false_iff.mpr hm) (Bool.eq_false_iff.mpr hm2)
      by_cases ha : strLtB a.asin b.asin = true
      · left
        simp [hme, ha]
      · by_cases ha2 : strLtB b.asin a.asin = true
        · right
          simp [hme, ha2]
        · have hae : a.asin = b.asin :=
            strLtB_conn (Bool.eq_false_iff.mpr ha) (Bool.eq_false_iff.mpr ha2)
          left
          simp [hme, hae]

theorem itemLe_trans : ∀ a b c : PItem, itemLe a b → itemLe b c → itemLe a c := by
  intro a b c h1 h2
  unfold itemLe itemLeB at h1 h2 ⊢
  simp only [Bool.or_eq_true, Bool.and_eq_true, decide_eq_true_eq] at h1 h2 ⊢
  rcases h1 with h1 | ⟨h1e, h1a⟩
  · rcases h2 with h2 | ⟨h2e, h2a⟩
    · exact Or.inl (strLtB_trans h1 h2)
    · exact Or.inl (h2e ▸ h1)
  · rcases h2 with h2 | ⟨h2e, h2a⟩
    · exact Or.inl (h1e ▸ h2)
    · refine Or.inr ⟨h1e.trans h2e, ?_⟩
      rcases h1a with h1a | h1a
      · rcases h2a with h2a | h2a
        · exact Or.inl (strLtB_trans h1a h2a)
        · exact Or.inl (h2a ▸ h1a)
      · rcases h2a with h2a | h2a
        · exact Or.inl (h1a ▸ h2a)
        · exact Or.inr (h1a.trans h2a)

theorem sorted_sortItems (l : List PItem) : List.Sorted itemLe (sortItems l) :=
  @List.sorted_insertionSort PItem itemLe _ ⟨itemLe_total⟩ ⟨itemLe_trans⟩ l

theorem sortItems_of_sorted {l : List PItem} (h : List.Sorted itemLe l) : sortItems l = l :=
  List.Sorted.insertionSort_eq h

end SyncP0

namespace SyncP0

theorem applyRow_activeMap_nonactive {st : P0State} {rc : RowClass}
    (h : ∀ i, rc ≠ .active i) : (applyRow st rc).activeMap = st.activeMap := by
  cases rc with
  | skip => rfl
  | nonAmazon i =>
    simp only [applyRow]
    split <;> rfl
  | inactive i =>
    simp only [applyRow]
    split <;> rfl
  | active i => exact absurd rfl (h i)

theorem applyRow_activeMap_active {st : P0State} {i : PItem} :
    (applyRow st (.active i)).activeMap =
      match jget? st.activeMap (keyOf i) with
      | none => jset st.activeMap (keyOf i) i
      | some e => jset st.activeMap (keyOf i) (pickBetter (some e) i) := by
  cases hjg : jget? st.activeMap (keyOf i) with
  | none => simp [applyRow, hjg]
  | some e => simp [applyRow, hjg]

theorem applyRow_activeMap_indep (a m m2 : JsMap PItem) (d d2 : Nat) (rc : RowClass) :
    (applyRow ⟨a, m, d⟩ rc).activeMap = (applyRow ⟨a, m2, d2⟩ rc).activeMap := by
  cases rc with
  | skip => rfl
  | nonAmazon i =>
    rw [applyRow_activeMap_nonactive (by intro j h; cases h),
      applyRow_activeMap_nonactive (by intro j h; cases h)]
  | inactive i =>
    rw [applyRow_activeMap_nonactive (by intro j h; cases h),
      applyRow_activeMap_nonactive (by intro j h; cases h)]
  | active i =>
    rw [applyRow_activeMap_active, applyRow_activeMap_active]

theorem foldRows_active_indep (headers : List String) (l : List (List String)) :
    ∀ (a m m2 : JsMap PItem) (d d2 : Nat),
      (foldRows headers ⟨a, m, d⟩ l).activeMap = (foldRows headers ⟨a, m2, d2⟩ l).activeMap := by
  induction l with
  | nil => intro a m m2 d d2; rfl
  | cons r l ih =>
    intro a m m2 d d2
    rw [foldRows_cons, foldRows_cons]
    have key := applyRow_activeMap_indep a m m2 d d2 (classifyRow headers r)
    calc (foldRows headers (applyRow ⟨a, m, d⟩ (classifyRow headers r)) l).activeMap
        = (foldRows headers
            ⟨(applyRow ⟨a, m2, d2⟩ (classifyRow headers r)).activeMap,
              (applyRow ⟨a, m, d⟩ (classifyRow headers r)).archiveMap,
              (applyRow ⟨a, m, d⟩ (classifyRow headers r)).dupActive⟩ l).activeMap := by
          rw [← key]
      _ = (foldRows headers (applyRow ⟨a, m2, d2⟩ (classifyRow headers r)) l).activeMap :=
          ih _ _ _ _ _

theorem applyRow_archiveMap_unchanged {st : P0State} {rc : RowClass}
    (h : ∀ i, (rc = .nonAmazon i ∨ rc = .inactive i) → jhas st.archiveMap (keyOf i) = true) :
    (applyRow st rc).archiveMap = st.archiveMap := by
  cases rc with
  | skip => rfl
  | nonAmazon i =>
    simp only [applyRow]
    rw [if_pos (h i (Or.inl rfl))]
  | inactive i =>
    simp only [applyRow]
    rw [if_pos (h i (Or.inr rfl))]
  | active i =>
    cases hjg : jget? st.activeMap (keyOf i) with
    | none => simp [applyRow, hjg]
    | some e => simp [applyRow, hjg]

theorem foldRows_archive_noop (headers : List String) (l : List (List String)) :
    ∀ (st : P0State),
      (∀ r ∈ l, ∀ i,
        (classifyRow headers r = .nonAmazon i ∨ classifyRow headers r = .inactive i) →
        jhas st.archiveMap (keyOf i) = true) →
      (foldRows headers st l).archiveMap = st.archiveMap := by
  induction l with
  | nil => intro st _; rfl
  | cons r l ih =>
    intro st h
    rw [foldRows_cons]
    have harch : (applyRow st (classifyRow headers r)).archiveMap = st.archiveMap :=
      applyRow_archiveMap_unchanged (fun i hi => h r (List.mem_cons_self _ _) i hi)
    rw [ih (applyRow st (classifyRow headers r))
      (by
        intro r2 hr2 i hi
        rw [harch]
        exact h r2 (List.mem_cons_of_mem _ hr2) i hi), harch]

theorem buildMap_append_of_nodup : ∀ (l : List PItem) (m : JsMap PItem),
    (jkeys m ++ l.map keyOf).Nodup →
    l.foldl (fun m p => jset m (keyOf p) p) m = m ++ l.map (fun p => (keyOf p, p)) := by
  intro l
  induction l with
  | nil => intro m _; simp
  | cons p l ih =>
    intro m h
    rw [List.foldl_cons]
    have hnot : keyOf p ∉ jkeys m := by
      intro hmem
      exact (List.disjoint_of_nodup_append h) hmem
        (by simp)
    have hset : jset m (keyOf p) p = m ++ [(keyOf p, p)] :=
      jset_eq_append _ (by
        rw [Bool.eq_false_iff]
        intro hh
        exact hnot (jhas_iff_mem_jkeys.mp hh))
    rw [hset, ih (m ++ [(keyOf p, p)]) (by
      have hre : jkeys (m ++ [(keyOf p, p)]) ++ l.map keyOf =
          jkeys m ++ keyOf p :: l.map keyOf := by
        simp [jkeys]
      rw [hre]
      simpa using h)]
    simp

theorem jvalues_map_pair (l : List PItem) :
    jvalues (l.map (fun p => (keyOf p, p))) = l := by
  unfold jvalues
  rw [List.map_map]
  have hid : (Prod.snd ∘ fun p : PItem => (keyOf p, p)) = id := rfl
  rw [hid, List.map_id]

theorem foldStep4_noop (nextKeys : List String) (entries : JsMap PItem) :
    ∀ (m : JsMap PItem), (∀ kv ∈ entries, shas nextKeys kv.1 = true) →
      foldStep4 nextKeys m entries = m := by
  induction entries with
  | nil => intro m _; rfl
  | cons kv l ih =>
    intro m h
    unfold foldStep4 at *
    rw [List.foldl_cons, if_pos (h kv (List.mem_cons_self _ _))]
    exact ih m (fun kv2 hkv2 => h kv2 (List.mem_cons_of_mem _ hkv2))

end SyncP0

open SyncP0 in
/-- C7 (amended): the part_000 snapshots are a pure function of the feed —
rerunning the engine on the same parsed feed with its own output as the
prior state reproduces exactly the same two snapshots (so runs from no
prior state are trivially byte-identical as well).  The
scripts/sync_products.mjs variant embeds the run timestamp in every record,
so its runs are byte-identical only when the clock strings coincide (see
the counterexample). -/
theorem C7_rerun_reproduces_snapshots (headers : List String)
    (dataRows : List (List String)) :
    part000Process headers dataRows
        (part000Process headers dataRows [] []).1
        (part000Process headers dataRows [] []).2 =
      part000Process headers dataRows [] [] := by
  have hrun1 : part000Process headers dataRows [] [] =
      (sortItems (jvalues (foldRows headers ⟨[], buildMap [], 0⟩ dataRows).activeMap),
        sortItems (jvalues (foldRows headers ⟨[], buildMap [], 0⟩ dataRows).archiveMap)) := rfl
  rw [hrun1, part000Process_def]
  have hgood1 : ∀ kv ∈ (foldRows headers ⟨[], buildMap [], 0⟩ dataRows).archiveMap,
      keyOf kv.2 = kv.1 :=
    foldRows_archive_good headers dataRows _
      (by intro kv hkv; exact absurd hkv (List.not_mem_nil _))
  have hnodup1 : (jkeys (foldRows headers ⟨[], buildMap [], 0⟩ dataRows).archiveMap).Nodup :=
    foldRows_archive_nodup headers dataRows _ (by simp [jkeys, buildMap])
  have hA1nodup :
      ((sortItems (jvalues (foldRows headers ⟨[], buildMap [], 0⟩ dataRows).archiveMap)).map
        keyOf).Nodup :=
    nodup_map_keyOf_sortItems hgood1 hnodup1
  have hbuildA1 : buildMap
        (sortItems (jvalues (foldRows headers ⟨[], buildMap [], 0⟩ dataRows).archiveMap)) =
      (sortItems (jvalues (foldRows headers ⟨[], buildMap [], 0⟩ dataRows).archiveMap)).map
        (fun p => (keyOf p, p)) := by
    unfold buildMap
    rw [buildMap_append_of_nodup _ [] (by simpa [jkeys] using hA1nodup)]
    simp
  have hcov : ∀ r ∈ dataRows, ∀ i,
      (classifyRow headers r = .nonAmazon i ∨ classifyRow headers r = .inactive i) →
      jhas (buildMap
        (sortItems (jvalues (foldRows headers ⟨[], buildMap [], 0⟩ dataRows).archiveMap)))
        (keyOf i) = true := by
    intro r hr i hi
    have h1 : jhas (foldRows headers ⟨[], buildMap [], 0⟩ dataRows).archiveMap (keyOf i) = true :=
      foldRows_archive_created headers dataRows _ r i hr hi
    rcases jhas_iff.mp h1 with ⟨v, hv⟩
    have hkv : keyOf v = keyOf i := hgood1 (keyOf i, v) hv
    have hvA1 : v ∈ sortItems (jvalues (foldRows headers ⟨[], buildMap [], 0⟩ dataRows).archiveMap) :=
      (List.perm_insertionSort _ _).mem_iff.mpr (mem_jvalues.mpr ⟨keyOf i, hv⟩)
    exact (buildMap_jhas _ [] (keyOf i)).mpr (Or.inr ⟨v, hvA1, hkv⟩)
  have harch2 : (foldRows headers
      ⟨[], buildMap
        (sortItems (jvalues (foldRows headers ⟨[], buildMap [], 0⟩ dataRows).archiveMap)), 0⟩
      dataRows).archiveMap =
      buildMap (sortItems (jvalues (foldRows headers ⟨[], buildMap [], 0⟩ dataRows).archiveMap)) :=
    foldRows_archive_noop headers dataRows _ hcov
  have hactive : (foldRows headers
      ⟨[], buildMap
        (sortItems (jvalues (foldRows headers ⟨[], buildMap [], 0⟩ dataRows).archiveMap)), 0⟩
      dataRows).activeMap =
      (foldRows headers ⟨[], buildMap [], 0⟩ dataRows).activeMap :=
    foldRows_active_indep headers dataRows [] _ _ 0 0
  rw [hactive, harch2]
  have hentries : ∀ kv ∈ buildMap
      (sortItems (jvalues (foldRows headers ⟨[], buildMap [], 0⟩ dataRows).activeMap)),
      shas ((sortItems
        (jvalues (foldRows headers ⟨[], buildMap [], 0⟩ dataRows).activeMap)).map keyOf)
        kv.1 = true := by
    intro kv hkv
    rcases buildMap_entry _ [] kv hkv with h0 | ⟨p, hp, he⟩
    · exact absurd h0 (List.not_mem_nil _)
    · rw [he]
      exact shas_iff.mpr (List.mem_map.mpr ⟨p, hp, rfl⟩)
  rw [foldStep4_noop _ _ _ hentries, hbuildA1, jvalues_map_pair,
    sortItems_of_sorted (sorted_sortItems _)]
